import Mathlib

/-!
Shallow embedding of the match-3 engine in `src/game-arena.js` (class
`GameArena`).  The DOM tile list is a `List GameTile` in document order;
a tile's grid position is its list index (row-major, `index = row*cols+col`).
Tiles are identified by `id` (object identity of the DOM node); swapping two
tiles in the DOM exchanges their list positions.  The companion files
`board-walker.js`, `match-info.js`, `combo-match-info.js` and `game-tile.js`
are not under `src/`; the definitions embedding them are modelled from the
spec and marked as such.
-/

/-- Modelled from the spec: a `GameTile` (game-tile.js is not under src/) is a
value with a tile-kind `type` and a `hidden` flag; the `id` stands for the DOM
node's object identity, which the engine uses to locate a tile's index. -/
structure GameTile where
  id : Nat
  type : Nat
  isHidden : Bool
  deriving DecidableEq, Repr

/-- The DOM child list of the game canvas, in document order. -/
abbrev Board := List GameTile

/-- The four seek directions of `#setupMatchDirectionalActions`. -/
inductive Direction where
  | left
  | up
  | right
  | down
  deriving DecidableEq, Repr

/-- Modelled from the spec: `BoardWalker.detectEdge*` (board-walker.js is not
under src/).  Spec section 4.1: left/right edges are column-boundary checks
(`index % cols == 0` for left, `(index+1) % cols == 0` for right); up/down are
boundary checks against row 0 and row `rows-1`. -/
def detectEdge (rows cols : Nat) : Direction → Nat → Bool
  | .left, i => i % cols == 0
  | .right, i => (i + 1) % cols == 0
  | .up, i => i / cols == 0
  | .down, i => i / cols == rows - 1

/-- Modelled from the spec: `BoardWalker.getIndexTo*` (board-walker.js is not
under src/).  Spec section 4.1: `left` (−1), `right` (+1), `up` (−cols),
`down` (+cols). -/
def stepIndex (cols : Nat) : Direction → Nat → Nat
  | .left, i => i - 1
  | .right, i => i + 1
  | .up, i => i - cols
  | .down, i => i + cols

/-- `#isInMatch`: a seeked tile can extend the match iff it is not hidden and
has the picked tile's type. -/
def isInMatch (t : GameTile) (pickedTileType : Nat) : Bool :=
  !t.isHidden && t.type == pickedTileType

/-- `#seekInDirection`: starting from `seekIndex`, repeatedly stop if the
current index is on the edge for `dir`, otherwise step one index in `dir` and
yield the tile there if it satisfies `#isInMatch`, stopping at the first tile
that does not.  Yields grid indices in walk order (nearest to farthest).
`fuel` bounds the recursion; `rows*cols` steps always suffice since each step
moves strictly in one direction inside the board. -/
def seekInDirection (rows cols : Nat) (b : Board) (dir : Direction)
    (pickedTileType : Nat) : Nat → Nat → List Nat
  | 0, _ => []
  | fuel + 1, seekIndex =>
    if detectEdge rows cols dir seekIndex then []
    else
      let next := stepIndex cols dir seekIndex
      match b.get? next with
      | none => []
      | some testTile =>
        if isInMatch testTile pickedTileType then
          next :: seekInDirection rows cols b dir pickedTileType fuel next
        else []

/-- `#seekInDirection` with the standard fuel `rows*cols`. -/
def seekFrom (rows cols : Nat) (b : Board) (dir : Direction)
    (pickedTileType : Nat) (seekIndex : Nat) : List Nat :=
  seekInDirection rows cols b dir pickedTileType (rows * cols) seekIndex

/-- Modelled from the spec: `MatchInfo` (match-info.js is not under src/) is a
pair of optional position sequences, one per axis. -/
structure MatchInfo where
  alongX : Option (List Nat)
  alongY : Option (List Nat)
  deriving DecidableEq, Repr

/-- The tile type stored at index `i` (reading `.type` off the DOM node). -/
def typeAt (b : Board) (i : Nat) : Nat :=
  ((b.get? i).map GameTile.type).getD 0

/-- The tile id stored at index `i`. -/
def idAt (b : Board) (i : Nat) : Nat :=
  ((b.get? i).map GameTile.id).getD 0

/-- `#detectMatchXY`: run the four directional seeks around `idx`, build
`matchX = [...left, idx, ...right]` when either horizontal run is non-empty
(else null) and likewise `matchY` from up/down, and return a `MatchInfo` only
when either axis has length at least 3.  Note: the source spreads the left and
up runs in walk order, without reversing them. -/
def detectMatchXY (rows cols : Nat) (b : Board) (idx : Nat) : Option MatchInfo :=
  let pickedTileType := typeAt b idx
  let leftRun := seekFrom rows cols b .left pickedTileType idx
  let upRun := seekFrom rows cols b .up pickedTileType idx
  let rightRun := seekFrom rows cols b .right pickedTileType idx
  let downRun := seekFrom rows cols b .down pickedTileType idx
  let matchX := if 1 ≤ leftRun.length ∨ 1 ≤ rightRun.length then
      some (leftRun ++ idx :: rightRun) else none
  let matchY := if 1 ≤ upRun.length ∨ 1 ≤ downRun.length then
      some (upRun ++ idx :: downRun) else none
  if 3 ≤ (matchX.map List.length).getD 0 ∨ 3 ≤ (matchY.map List.length).getD 0 then
    some ⟨matchX, matchY⟩
  else none

/-- Modelled from the spec: `ComboMatchInfo` (combo-match-info.js is not under
src/).  Spec section 4.3: union all positions from whichever of
`alongX`/`alongY` are non-null in each non-null `MatchInfo`, deduplicate by
position, sort ascending by grid index (`domSortedTiles`). -/
def comboPositions (m1 m2 : Option MatchInfo) : List Nat :=
  let axisPositions : Option MatchInfo → List Nat := fun m =>
    match m with
    | none => []
    | some mi => mi.alongX.getD [] ++ mi.alongY.getD []
  ((axisPositions m1 ++ axisPositions m2).dedup).insertionSort (· ≤ ·)

/-- `#calculateMatchByUserSelection`: detect around the picked and target
indices; if either analysis found a match, merge the two results into one
combo, else report `null`. -/
def calculateMatchByUserSelection (rows cols : Nat) (b : Board)
    (pickedIdx targetIdx : Nat) : Option (List Nat) :=
  let matchInfo1 := detectMatchXY rows cols b pickedIdx
  let matchInfo2 := detectMatchXY rows cols b targetIdx
  if matchInfo1.isSome ∨ matchInfo2.isSome then
    some (comboPositions matchInfo1 matchInfo2)
  else none

/-- `#elemTiles.indexOf(tile)`: the current index of the tile with identity
`tid` in the DOM child list. -/
def posOf (b : Board) (tid : Nat) : Nat :=
  b.findIdx (fun t => t.id == tid)

/-- Exchange the entries at indices `i` and `j` (a no-op when either index is
out of range, where the DOM call would have had no element to operate on). -/
def swapAt (b : Board) (i j : Nat) : Board :=
  match b.get? i, b.get? j with
  | some x, some y => (b.set i y).set j x
  | _, _ => b

/-- `#swapTiles(tile1, tile2)`: the two DOM reinsertion branches (guarded by
`compareDocumentPosition`) both amount to exchanging the positions of the two
tiles in the child list, leaving every other tile where it was. -/
def swapTiles (b : Board) (tid1 tid2 : Nat) : Board :=
  swapAt b (posOf b tid1) (posOf b tid2)

/-- `#tryGetFallingTile(indexMatchedTile)`: `null` at the top edge; otherwise
look at the tile directly above and return it unless it is hidden. -/
def tryGetFallingTile (rows cols : Nat) (b : Board) (indexMatchedTile : Nat) :
    Option GameTile :=
  if detectEdge rows cols .up indexMatchedTile then none
  else
    match b.get? (stepIndex cols .up indexMatchedTile) with
    | none => none
    | some tile => if tile.isHidden then none else some tile

/-- The body of the `forEach` in `#bubbleMatchToTopEdge`, for one working-set
tile: find the tile's current index, try to get a falling tile; swap with it
when there is one, otherwise delete the tile from the working set (the kept
accumulator collects the tiles not deleted, in order). -/
def bubbleStep (rows cols : Nat) (acc : Board × List Nat) (tid : Nat) :
    Board × List Nat :=
  let idxMatchTile := posOf acc.1 tid
  match tryGetFallingTile rows cols acc.1 idxMatchTile with
  | some tileFalling => (swapTiles acc.1 tid tileFalling.id, acc.2 ++ [tid])
  | none => (acc.1, acc.2)

/-- One `fixtureRaw.forEach(...)` pass of `#bubbleMatchToTopEdge`: process the
working set in insertion order against the evolving board; the second
component is the working set after the pass (survivors keep their order). -/
def bubblePass (rows cols : Nat) (b : Board) (pending : List Nat) :
    Board × List Nat :=
  pending.foldl (bubbleStep rows cols) (b, [])

/-- The `while (fixtureRaw.size)` loop of `#bubbleMatchToTopEdge`, with fuel:
repeat passes until the working set is empty. -/
def bubbleLoop (rows cols : Nat) : Nat → Board → List Nat → Board × List Nat
  | 0, b, s => (b, s)
  | fuel + 1, b, s =>
    if s.isEmpty then (b, s)
    else
      let r := bubblePass rows cols b s
      bubbleLoop rows cols fuel r.1 r.2

/-- `#bubbleMatchToTopEdge`: run the bubbling loop on the working set of
matched tiles (by identity); `rows * |set|` passes always suffice (the
termination theorem below), so that fuel makes this the loop's fixpoint. -/
def bubbleMatchToTopEdge (rows cols : Nat) (b : Board) (comboIds : List Nat) :
    Board :=
  (bubbleLoop rows cols (rows * comboIds.length) b comboIds).1

/-- `GameTile.setHidden` on one tile value. -/
def setHidden (t : GameTile) : GameTile :=
  { t with isHidden := true }

/-- `#hideMatch`: set every tile of the combo (by identity) hidden. -/
def hideIds (b : Board) (ids : List Nat) : Board :=
  b.map (fun t => if t.id ∈ ids then setHidden t else t)

/-- `GameTile.type` read off the tile object with identity `tid`. -/
def typeOfId (b : Board) (tid : Nat) : Nat :=
  ((b.find? (fun t => t.id == tid)).map GameTile.type).getD 0

/-- The selection-relevant state of `GameArena`: the DOM child list plus the
`#elemPickedTile` / `#elemTargetTile` references (by tile identity). -/
structure GameState where
  board : Board
  picked : Option Nat
  target : Option Nat
  deriving DecidableEq, Repr

/-- `#resetUserSelection` (the styling calls do not affect engine state). -/
def resetUserSelection (s : GameState) : GameState :=
  { s with picked := none, target := none }

/-- `#resetUserSelectionWithNewPicked`. -/
def resetUserSelectionWithNewPicked (s : GameState) (tid : Nat) : GameState :=
  { s with picked := some tid, target := none }

/-- `#isSecondTileOnSide(target)`: the difference of the clicked tile's index
and the picked tile's index selects a direction; any other difference means
`undefined` (no side). -/
def isSecondTileOnSide (cols : Nat) (b : Board) (pickedTid clickedTid : Nat) :
    Option Direction :=
  let x : Int := posOf b clickedTid
  let y : Int := posOf b pickedTid
  if x - y = -1 then some .left
  else if x - y = -(cols : Int) then some .up
  else if x - y = (cols : Int) then some .down
  else if x - y = 1 then some .right
  else none

/-- `#manageAndValidateSelection(clickedTile)`: the guard cascade of the
source, in order: click on the picked tile deactivates the selection; a click
on a tile of the picked tile's type resets picked to the new tile; with a
picked tile, no target and an adjacent-by-index click the target is set and
the direction returned; with no picked tile the click becomes picked; in the
remaining cases (target already set, or wrong second tile) the selection is
reset with the new tile picked and the returned value is `undefined` (when
the target was already set, `x` is never assigned). -/
def manageAndValidateSelection (cols : Nat) (s : GameState) (clicked : Nat) :
    GameState × Option Direction :=
  if s.picked = some clicked then
    (resetUserSelection s, none)
  else if s.picked.map (typeOfId s.board) = some (typeOfId s.board clicked) then
    (resetUserSelectionWithNewPicked s clicked, none)
  else
    match s.picked, s.target with
    | some pk, none =>
      match isSecondTileOnSide cols s.board pk clicked with
      | some dir => ({ s with target := some clicked }, some dir)
      | none => (resetUserSelectionWithNewPicked s clicked, none)
    | none, _ => ({ s with picked := some clicked }, none)
    | some _, some _ => (resetUserSelectionWithNewPicked s clicked, none)

/-- `#swapUserSelectedTiles`: throws the developer error when either selected
tile is unset, otherwise swaps the two tiles in the DOM. -/
def swapUserSelectedTiles (b : Board) (picked target : Option Nat) :
    Except String Board :=
  match picked, target with
  | some pk, some tg => .ok (swapTiles b pk tg)
  | _, _ => .error "Developer error: tile swapping failed: at least one of the subjected tiles is not set."

/-- `#attemptSwap` as the spec names it: `#swapUserSelectedTiles` followed by
`#calculateMatchByUserSelection` on the swapped board (the two detections run
at the tiles' post-swap indices). -/
def attemptSwapResolution (rows cols : Nat) (b : Board)
    (picked target : Option Nat) : Except String (Board × Option (List Nat)) :=
  match picked, target with
  | some pk, some tg =>
    let bSwapped := swapTiles b pk tg
    .ok (bSwapped,
      calculateMatchByUserSelection rows cols bSwapped
        (posOf bSwapped pk) (posOf bSwapped tg))
  | _, _ => .error "Developer error: tile swapping failed: at least one of the subjected tiles is not set."

/-- `#handleUserSuccessSelection`: reset the selection, hide the combo tiles,
bubble them to the top edge. -/
def handleUserSuccessSelection (rows cols : Nat) (s : GameState)
    (comboPosList : List Nat) : GameState :=
  let ids := comboPosList.map (idAt s.board)
  let bHidden := hideIds s.board ids
  let bSettled := bubbleMatchToTopEdge rows cols bHidden ids
  { board := bSettled, picked := none, target := none }

/-- `#tileClickHandler`: validate the selection; on a returned direction swap
the selected tiles, compute the combo, and either resolve it (success) or
leave the board swapped with the selection intact (bad selection; the revert
is a separately scheduled timer, `fireRevert` below). -/
def tileClickHandler (rows cols : Nat) (s : GameState) (clicked : Nat) :
    GameState :=
  let r := manageAndValidateSelection cols s clicked
  match r.2 with
  | none => r.1
  | some _ =>
    match r.1.picked, r.1.target with
    | some pk, some tg =>
      let bSwapped := swapTiles r.1.board pk tg
      let sSwapped := { r.1 with board := bSwapped }
      match calculateMatchByUserSelection rows cols bSwapped
          (posOf bSwapped pk) (posOf bSwapped tg) with
      | some combo => handleUserSuccessSelection rows cols sSwapped combo
      | none => sSwapped
    | _, _ => r.1

/-- The callback scheduled by `#handleUserBadSelection`: when it fires it
calls `#swapUserSelectedTiles` (which reads the selection as it is at firing
time and throws when a tile is unset) and then `#resetUserSelection`. -/
def fireRevert (s : GameState) : Except String GameState :=
  match s.picked, s.target with
  | some pk, some tg =>
    .ok (resetUserSelection { s with board := swapTiles s.board pk tg })
  | _, _ => .error "Developer error: tile swapping failed: at least one of the subjected tiles is not set."

/-- The events the engine reacts to: a tile click, or a scheduled bad-swap
revert timer firing. -/
inductive GameEvent where
  | click (tid : Nat)
  | revertTimer
  deriving DecidableEq, Repr

/-- One event step: a click runs `#tileClickHandler`; a firing revert timer
runs its callback, an uncaught throw leaving the state as it was. -/
def stepEvent (rows cols : Nat) (s : GameState) : GameEvent → GameState
  | .click tid => tileClickHandler rows cols s tid
  | .revertTimer =>
    match fireRevert s with
    | .ok sNext => sNext
    | .error _ => s

/-- Run a sequence of events from a state. -/
def runEvents (rows cols : Nat) (s : GameState) (evs : List GameEvent) :
    GameState :=
  evs.foldl (stepEvent rows cols) s

/-- Cardinal grid adjacency: `i` and `j` are horizontal neighbors in the same
row or vertical neighbors in the same column of the `rows*cols` row-major
grid.  This is the adjacency notion of the spec ("one of the four cardinal
neighbors"). -/
def cardinallyAdjacent (cols i j : Nat) : Prop :=
  (i / cols = j / cols ∧ (i + 1 = j ∨ j + 1 = i)) ∨
  (i % cols = j % cols ∧ (i + cols = j ∨ j + cols = i))

/-- Whether the tile at index `i` exists and is visible. -/
def visibleAt (b : Board) (i : Nat) : Bool :=
  ((b.get? i).map (fun t => !t.isHidden)).getD false

/-- Position `i` belongs to some run of length at least 3 of visible
same-type tiles (glossary: a run is a maximal contiguous same-axis sequence
of visible same-type tiles; `i` lies in one of length ≥ 3 iff `i` is visible
and the maximal horizontal or vertical segment through `i`, computed by the
source's own directional seeks with `i`'s type, has length ≥ 3). -/
def memberOfRun3 (rows cols : Nat) (b : Board) (i : Nat) : Prop :=
  visibleAt b i = true ∧
  (3 ≤ (seekFrom rows cols b .left (typeAt b i) i).length + 1 +
        (seekFrom rows cols b .right (typeAt b i) i).length ∨
   3 ≤ (seekFrom rows cols b .up (typeAt b i) i).length + 1 +
        (seekFrom rows cols b .down (typeAt b i) i).length)

/-- There is a tile with identity `tid` on the board. -/
def HasId (b : Board) (tid : Nat) : Prop :=
  ∃ t ∈ b, t.id = tid

/-- The tile with identity `tid` is on the board and hidden. -/
def HiddenId (b : Board) (tid : Nat) : Prop :=
  ∃ t ∈ b, t.id = tid ∧ t.isHidden = true

/-- All tile identities on the board are distinct (DOM nodes are distinct
objects). -/
def NodupIds (b : Board) : Prop :=
  (b.map GameTile.id).Nodup

/-- Index-level formulation of distinct identities: two positions holding
tiles of the same identity are equal. -/
def IdsInjective (b : Board) : Prop :=
  ∀ k l tk tl, b.get? k = some tk → b.get? l = some tl → tk.id = tl.id → k = l

/-- Termination measure of the bubbling loop: each working-set tile
contributes its current row plus one. -/
def measureOf (cols : Nat) (b : Board) (s : List Nat) : Nat :=
  (s.map (fun tid => posOf b tid / cols + 1)).sum

/-- A 1-row, 3-column board of three visible same-type tiles. -/
def b3row : Board := [⟨0, 1, false⟩, ⟨1, 1, false⟩, ⟨2, 1, false⟩]

/-- A 3x3 board (row-major types `1 1 2 / 3 1 3 / 3 1 3`, all visible):
around index 1 the horizontal run is `[0, 1]` (length 2) and the vertical run
is `[1, 4, 7]` (length 3). -/
def bC2 : Board :=
  [⟨0, 1, false⟩, ⟨1, 1, false⟩, ⟨2, 2, false⟩,
   ⟨3, 3, false⟩, ⟨4, 1, false⟩, ⟨5, 3, false⟩,
   ⟨6, 3, false⟩, ⟨7, 1, false⟩, ⟨8, 3, false⟩]

/-- A 3-row, 1-column board whose rows 1 and 2 hold hidden (cleared) tiles. -/
def bCas : Board := [⟨0, 1, false⟩, ⟨1, 2, true⟩, ⟨2, 3, true⟩]

/-- The board after the first bubbling pass over `bCas` with working set
`[1, 2]`. -/
def bCasPass : Board × List Nat := bubblePass 3 1 bCas [1, 2]

/-- A 2x2 board of four visible tiles with pairwise distinct types. -/
def b22 : Board := [⟨0, 1, false⟩, ⟨1, 2, false⟩, ⟨2, 3, false⟩, ⟨3, 4, false⟩]

/-- A 1-row, 4-column board of visible tiles with pairwise distinct types. -/
def b14 : Board := [⟨0, 1, false⟩, ⟨1, 2, false⟩, ⟨2, 3, false⟩, ⟨3, 4, false⟩]

/-- A 1-row, 2-column board of two visible tiles of distinct types. -/
def b12 : Board := [⟨0, 1, false⟩, ⟨1, 2, false⟩]

/-- A 1-row, 2-column board of two visible tiles of the same type. -/
def b12same : Board := [⟨0, 1, false⟩, ⟨1, 1, false⟩]

/-- A 1-row, 3-column board `visible A, hidden A, visible A`: the hidden tile
sits between two visible tiles of its own type. -/
def bC8 : Board := [⟨0, 1, false⟩, ⟨1, 1, true⟩, ⟨2, 1, false⟩]

instance cardinallyAdjacent_decidable (cols i j : Nat) :
    Decidable (cardinallyAdjacent cols i j) := by
  unfold cardinallyAdjacent
  infer_instance

instance memberOfRun3_decidable (rows cols : Nat) (b : Board) (i : Nat) :
    Decidable (memberOfRun3 rows cols b i) := by
  unfold memberOfRun3
  infer_instance

instance hasId_decidable (b : Board) (tid : Nat) : Decidable (HasId b tid) := by
  unfold HasId
  infer_instance

instance hiddenId_decidable (b : Board) (tid : Nat) :
    Decidable (HiddenId b tid) := by
  unfold HiddenId
  infer_instance

instance nodupIds_decidable (b : Board) : Decidable (NodupIds b) := by
  unfold NodupIds
  infer_instance


instance exceptDecidableEq {e a : Type} [DecidableEq e] [DecidableEq a] :
    DecidableEq (Except e a) := fun x y =>
  match x, y with
  | .error u, .error v =>
    if h : u = v then .isTrue (by rw [h])
    else .isFalse (by intro hc; cases hc; exact h rfl)
  | .error _, .ok _ => .isFalse (by intro hc; cases hc)
  | .ok _, .error _ => .isFalse (by intro hc; cases hc)
  | .ok u, .ok v =>
    if h : u = v then .isTrue (by rw [h])
    else .isFalse (by intro hc; cases hc; exact h rfl)

/-- The selection invariant of the click state machine: tile identities on
the board are pairwise distinct, the target is only ever set alongside a
picked tile, and whenever both are set their tile types differ. -/
def SelInv (s : GameState) : Prop :=
  IdsInjective s.board ∧
  (s.picked = none → s.target = none) ∧
  (∀ p t, s.picked = some p → s.target = some t →
    typeOfId s.board p ≠ typeOfId s.board t)

theorem get?_set_self (l : List GameTile) (i : Nat) (a : GameTile)
    (h : i < l.length) : (l.set i a).get? i = some a := by
  rw [List.get?_set_eq]
  rw [List.get?_eq_get h]
  rfl

theorem swapAt_get? (b : Board) (i j : Nat) (hi : i < b.length)
    (hj : j < b.length) (k : Nat) :
    (swapAt b i j).get? k =
      b.get? (if k = j then i else if k = i then j else k) := by
  have hgi := List.get?_eq_get hi
  have hgj := List.get?_eq_get hj
  unfold swapAt
  rw [hgi, hgj]
  by_cases hkj : k = j
  · rw [if_pos hkj, hkj, get?_set_self _ _ _ (by simpa using hj), hgi]
  · rw [if_neg hkj, List.get?_set_ne _ _ (fun h => hkj h.symm)]
    by_cases hki : k = i
    · rw [if_pos hki, hki, get?_set_self _ _ _ hi, hgj]
    · rw [if_neg hki, List.get?_set_ne _ _ (fun h => hki h.symm)]

theorem swapAt_length (b : Board) (i j : Nat) :
    (swapAt b i j).length = b.length := by
  unfold swapAt
  cases b.get? i <;> cases b.get? j <;> simp

theorem mem_swapAt (b : Board) (i j : Nat) (t : GameTile) :
    t ∈ swapAt b i j ↔ t ∈ b := by
  rcases h1 : b.get? i with _ | x
  · unfold swapAt
    rw [h1]
  rcases h2 : b.get? j with _ | y
  · unfold swapAt
    rw [h1, h2]
  have hi : i < b.length := (List.get?_eq_some.mp h1).1
  have hj : j < b.length := (List.get?_eq_some.mp h2).1
  constructor
  · intro hmem
    rcases List.mem_iff_get?.mp hmem with ⟨k, hk⟩
    rw [swapAt_get? b i j hi hj k] at hk
    exact List.mem_iff_get?.mpr ⟨_, hk⟩
  · intro hmem
    rcases List.mem_iff_get?.mp hmem with ⟨k, hk⟩
    by_cases hki : k = i
    · refine List.mem_iff_get?.mpr ⟨j, ?_⟩
      rw [swapAt_get? b i j hi hj j, if_pos rfl, ← hki]
      exact hk
    · by_cases hkj : k = j
      · refine List.mem_iff_get?.mpr ⟨i, ?_⟩
        rw [swapAt_get? b i j hi hj i]
        by_cases hij : i = j
        · rw [if_pos hij, hij, ← hkj]
          exact hk
        · rw [if_neg hij, if_pos rfl, ← hkj]
          exact hk
      · refine List.mem_iff_get?.mpr ⟨k, ?_⟩
        rw [swapAt_get? b i j hi hj k, if_neg hkj, if_neg hki]
        exact hk

theorem posOf_cons_of_ne (a : GameTile) (l : List GameTile) (tid : Nat)
    (h : a.id ≠ tid) : posOf (a :: l) tid = posOf l tid + 1 := by
  unfold posOf
  rw [List.findIdx_cons]
  have : (a.id == tid) = false := beq_false_of_ne h
  rw [this]
  rfl

theorem posOf_cons_of_eq (a : GameTile) (l : List GameTile) (tid : Nat)
    (h : a.id = tid) : posOf (a :: l) tid = 0 := by
  unfold posOf
  rw [List.findIdx_cons]
  have : (a.id == tid) = true := beq_iff_eq.mpr h
  rw [this]
  rfl

theorem posOf_get? (b : Board) (tid : Nat) (h : HasId b tid) :
    ∃ t, b.get? (posOf b tid) = some t ∧ t.id = tid := by
  induction b with
  | nil => rcases h with ⟨t, ht, _⟩; cases ht
  | cons a l ih =>
    by_cases ha : a.id = tid
    · exact ⟨a, by rw [posOf_cons_of_eq a l tid ha]; rfl, ha⟩
    · rcases h with ⟨t, ht, htid⟩
      rcases List.mem_cons.mp ht with rfl | hmem
      · exact absurd htid ha
      · rcases ih ⟨t, hmem, htid⟩ with ⟨u, hu, huid⟩
        exact ⟨u, by rw [posOf_cons_of_ne a l tid ha]; exact hu, huid⟩

theorem posOf_lt_length (b : Board) (tid : Nat) (h : HasId b tid) :
    posOf b tid < b.length := by
  rcases posOf_get? b tid h with ⟨t, ht, _⟩
  exact (List.get?_eq_some.mp ht).1

theorem posOf_eq (b : Board) (tid : Nat) (k : Nat) (t : GameTile)
    (hInj : IdsInjective b) (hk : b.get? k = some t) (ht : t.id = tid) :
    posOf b tid = k := by
  have hmem : HasId b tid :=
    ⟨t, List.mem_iff_get?.mpr ⟨k, hk⟩, ht⟩
  rcases posOf_get? b tid hmem with ⟨u, hu, huid⟩
  exact hInj _ _ _ _ hu hk (huid.trans ht.symm)

theorem nodupIds_iff_idsInjective (b : Board) :
    NodupIds b ↔ IdsInjective b := by
  constructor
  · intro hnd k l tk tl hk hl hid
    have hinj := List.nodup_iff_injective_get.mp hnd
    rcases List.get?_eq_some.mp hk with ⟨hklt, hkg⟩
    rcases List.get?_eq_some.mp hl with ⟨hllt, hlg⟩
    have hklt' : k < (b.map GameTile.id).length := by simpa using hklt
    have hllt' : l < (b.map GameTile.id).length := by simpa using hllt
    have : (b.map GameTile.id).get ⟨k, hklt'⟩ = (b.map GameTile.id).get ⟨l, hllt'⟩ := by
      rw [List.get_map, List.get_map, hkg, hlg, hid]
    have := hinj this
    exact congrArg Fin.val this
  · intro hInj
    refine List.nodup_iff_injective_get.mpr ?_
    rintro ⟨k, hk⟩ ⟨l, hl⟩ hg
    have hk' : k < b.length := by simpa using hk
    have hl' : l < b.length := by simpa using hl
    have hgk : (b.map GameTile.id).get ⟨k, hk⟩ = (b.get ⟨k, hk'⟩).id := by
      rw [List.get_map]
    have hgl : (b.map GameTile.id).get ⟨l, hl⟩ = (b.get ⟨l, hl'⟩).id := by
      rw [List.get_map]
    have : (b.get ⟨k, hk'⟩).id = (b.get ⟨l, hl'⟩).id := by
      rw [← hgk, ← hgl, hg]
    have := hInj k l _ _ (List.get?_eq_get hk') (List.get?_eq_get hl') this
    exact Fin.ext this

theorem swapAt_get?_total (b : Board) (i j : Nat) (k : Nat) :
    (swapAt b i j).get? k = b.get? k ∨
    (i < b.length ∧ j < b.length ∧
      (swapAt b i j).get? k =
        b.get? (if k = j then i else if k = i then j else k)) := by
  rcases h1 : b.get? i with _ | x
  · left
    unfold swapAt
    rw [h1]
  rcases h2 : b.get? j with _ | y
  · left
    unfold swapAt
    rw [h1, h2]
  right
  have hi : i < b.length := (List.get?_eq_some.mp h1).1
  have hj : j < b.length := (List.get?_eq_some.mp h2).1
  exact ⟨hi, hj, swapAt_get? b i j hi hj k⟩

theorem idsInjective_swapAt (b : Board) (i j : Nat) (hInj : IdsInjective b) :
    IdsInjective (swapAt b i j) := by
  rcases h1 : b.get? i with _ | x
  · unfold swapAt
    rw [h1]
    exact hInj
  rcases h2 : b.get? j with _ | y
  · unfold swapAt
    rw [h1, h2]
    exact hInj
  have hi : i < b.length := (List.get?_eq_some.mp h1).1
  have hj : j < b.length := (List.get?_eq_some.mp h2).1
  intro k l tk tl hk hl hid
  rw [swapAt_get? b i j hi hj k] at hk
  rw [swapAt_get? b i j hi hj l] at hl
  have hsig := hInj _ _ _ _ hk hl hid
  revert hsig
  split_ifs <;> omega

theorem hasId_swapAt (b : Board) (i j : Nat) (tid : Nat) :
    HasId (swapAt b i j) tid ↔ HasId b tid := by
  unfold HasId
  constructor
  · rintro ⟨t, ht, htid⟩
    exact ⟨t, (mem_swapAt b i j t).mp ht, htid⟩
  · rintro ⟨t, ht, htid⟩
    exact ⟨t, (mem_swapAt b i j t).mpr ht, htid⟩

theorem hiddenId_swapAt (b : Board) (i j : Nat) (tid : Nat) :
    HiddenId (swapAt b i j) tid ↔ HiddenId b tid := by
  unfold HiddenId
  constructor
  · rintro ⟨t, ht, htid⟩
    exact ⟨t, (mem_swapAt b i j t).mp ht, htid⟩
  · rintro ⟨t, ht, htid⟩
    exact ⟨t, (mem_swapAt b i j t).mpr ht, htid⟩

theorem posOf_swapAt (b : Board) (i j : Nat) (tid : Nat)
    (hInj : IdsInjective b) (h : HasId b tid)
    (hi : i < b.length) (hj : j < b.length) :
    posOf (swapAt b i j) tid =
      if posOf b tid = i then j else if posOf b tid = j then i else posOf b tid := by
  rcases posOf_get? b tid h with ⟨t, ht, htid⟩
  have hInj' := idsInjective_swapAt b i j hInj
  by_cases hpi : posOf b tid = i
  · rw [if_pos hpi]
    refine posOf_eq _ tid j t hInj' ?_ htid
    rw [swapAt_get? b i j hi hj j, if_pos rfl, ← hpi]
    exact ht
  · by_cases hpj : posOf b tid = j
    · rw [if_neg hpi, if_pos hpj]
      refine posOf_eq _ tid i t hInj' ?_ htid
      rw [swapAt_get? b i j hi hj i]
      have hij : i ≠ j := fun hc => hpi (hc ▸ hpj)
      rw [if_neg hij, if_pos rfl, ← hpj]
      exact ht
    · rw [if_neg hpi, if_neg hpj]
      refine posOf_eq _ tid (posOf b tid) t hInj' ?_ htid
      rw [swapAt_get? b i j hi hj (posOf b tid), if_neg hpj, if_neg hpi]
      exact ht

theorem div_pred_of_mod_ne_zero (i cols : Nat) (hc : 0 < cols)
    (h : i % cols ≠ 0) : (i - 1) / cols = i / cols ∧ (i - 1) % cols = i % cols - 1 := by
  have hmod := Nat.div_add_mod i cols
  have hlt : i % cols < cols := Nat.mod_lt _ hc
  have h1 : 1 ≤ i % cols := Nat.one_le_iff_ne_zero.mpr h
  have hi1 : i - 1 = cols * (i / cols) + (i % cols - 1) := by omega
  have hsmall : i % cols - 1 < cols := by omega
  constructor
  · rw [hi1, Nat.mul_add_div hc, Nat.div_eq_of_lt hsmall, Nat.add_zero]
  · rw [hi1, Nat.add_comm, Nat.add_mul_mod_self_left, Nat.mod_eq_of_lt hsmall]

theorem div_succ_of_mod_ne_zero (i cols : Nat) (hc : 0 < cols)
    (h : (i + 1) % cols ≠ 0) : (i + 1) / cols = i / cols := by
  have hmod := Nat.div_add_mod i cols
  have hlt : i % cols < cols := Nat.mod_lt _ hc
  have hmul : cols * (i / cols + 1) = cols * (i / cols) + cols := Nat.mul_succ cols _
  have hne : i % cols + 1 ≠ cols := by
    intro hc2
    apply h
    have hstep : i + 1 = cols * (i / cols + 1) := by omega
    rw [hstep, Nat.mul_mod_right]
  have hi1 : i + 1 = cols * (i / cols) + (i % cols + 1) := by omega
  have hsmall : i % cols + 1 < cols := by omega
  rw [hi1, Nat.mul_add_div hc, Nat.div_eq_of_lt hsmall, Nat.add_zero]

theorem sub_cols_div (i cols : Nat) (hc : 0 < cols) (h : cols ≤ i) :
    (i - cols) / cols = i / cols - 1 ∧ (i - cols) % cols = i % cols := by
  have h3 : i - cols + cols = i := Nat.sub_add_cancel h
  have h2 : (i - cols + cols) / cols = (i - cols) / cols + 1 := Nat.add_div_right _ hc
  have h4 : (i - cols + cols) % cols = (i - cols) % cols := Nat.add_mod_right _ _
  rw [h3] at h2 h4
  exact ⟨by rw [h2, Nat.add_sub_cancel], h4.symm⟩

theorem edgeUp_false_elim (rows cols i : Nat)
    (h : detectEdge rows cols .up i = false) : 0 < cols ∧ cols ≤ i := by
  have h' : (i / cols == 0) = false := h
  have hne : i / cols ≠ 0 := by simpa using h'
  rcases Nat.eq_zero_or_pos cols with hc | hc
  · rw [hc, Nat.div_zero] at hne
    exact absurd rfl hne
  · exact ⟨hc, (Nat.one_le_div_iff hc).mp (Nat.one_le_iff_ne_zero.mpr hne)⟩

theorem seekInDirection_succ (rows cols : Nat) (b : Board) (dir : Direction)
    (ty fuel i : Nat) :
    seekInDirection rows cols b dir ty (fuel + 1) i =
      if detectEdge rows cols dir i then []
      else
        match b.get? (stepIndex cols dir i) with
        | none => []
        | some t =>
          if isInMatch t ty then
            stepIndex cols dir i :: seekInDirection rows cols b dir ty fuel (stepIndex cols dir i)
          else [] := rfl

theorem seek_left_shape (rows cols : Nat) (b : Board) (ty : Nat) :
    ∀ fuel i, ∃ n, seekInDirection rows cols b .left ty fuel i =
      (List.range n).map (fun k => i - (k + 1)) := by
  intro fuel
  induction fuel with
  | zero => exact fun i => ⟨0, rfl⟩
  | succ m ih =>
    intro i
    rw [seekInDirection_succ]
    by_cases he : detectEdge rows cols .left i
    · rw [if_pos he]
      exact ⟨0, rfl⟩
    · rw [if_neg he]
      split
      · exact ⟨0, rfl⟩
      · rename_i t heq
        by_cases hm : isInMatch t ty
        · rw [if_pos hm]
          rcases ih (stepIndex cols .left i) with ⟨n, hn⟩
          refine ⟨n + 1, ?_⟩
          rw [hn, List.range_succ_eq_map, List.map_cons, List.map_map]
          refine congrArg₂ _ rfl ?_
          refine List.map_congr_left ?_
          intro a _
          show stepIndex cols .left i - (a + 1) = i - (a + 1 + 1)
          show i - 1 - (a + 1) = i - (a + 1 + 1)
          omega
        · rw [if_neg hm]
          exact ⟨0, rfl⟩

theorem seek_right_shape (rows cols : Nat) (b : Board) (ty : Nat) :
    ∀ fuel i, ∃ n, seekInDirection rows cols b .right ty fuel i =
      (List.range n).map (fun k => i + (k + 1)) := by
  intro fuel
  induction fuel with
  | zero => exact fun i => ⟨0, rfl⟩
  | succ m ih =>
    intro i
    rw [seekInDirection_succ]
    by_cases he : detectEdge rows cols .right i
    · rw [if_pos he]
      exact ⟨0, rfl⟩
    · rw [if_neg he]
      split
      · exact ⟨0, rfl⟩
      · rename_i t heq
        by_cases hm : isInMatch t ty
        · rw [if_pos hm]
          rcases ih (stepIndex cols .right i) with ⟨n, hn⟩
          refine ⟨n + 1, ?_⟩
          rw [hn, List.range_succ_eq_map, List.map_cons, List.map_map]
          refine congrArg₂ _ rfl ?_
          refine List.map_congr_left ?_
          intro a _
          show stepIndex cols .right i + (a + 1) = i + (a + 1 + 1)
          show i + 1 + (a + 1) = i + (a + 1 + 1)
          omega
        · rw [if_neg hm]
          exact ⟨0, rfl⟩

theorem seek_up_shape (rows cols : Nat) (b : Board) (ty : Nat) :
    ∀ fuel i, ∃ n, seekInDirection rows cols b .up ty fuel i =
      (List.range n).map (fun k => i - (k + 1) * cols) := by
  intro fuel
  induction fuel with
  | zero => exact fun i => ⟨0, rfl⟩
  | succ m ih =>
    intro i
    rw [seekInDirection_succ]
    by_cases he : detectEdge rows cols .up i
    · rw [if_pos he]
      exact ⟨0, rfl⟩
    · rw [if_neg he]
      split
      · exact ⟨0, rfl⟩
      · rename_i t heq
        by_cases hm : isInMatch t ty
        · rw [if_pos hm]
          rcases ih (stepIndex cols .up i) with ⟨n, hn⟩
          refine ⟨n + 1, ?_⟩
          rw [hn, List.range_succ_eq_map, List.map_cons, List.map_map]
          refine congrArg₂ _ ?_ ?_
          · show stepIndex cols .up i = i - (0 + 1) * cols
            show i - cols = i - (0 + 1) * cols
            rw [Nat.zero_add, Nat.one_mul]
          · refine List.map_congr_left ?_
            intro a _
            show stepIndex cols .up i - (a + 1) * cols = i - (a + 1 + 1) * cols
            show i - cols - (a + 1) * cols = i - (a + 1 + 1) * cols
            rw [Nat.sub_sub]
            congr 1
            ring
        · rw [if_neg hm]
          exact ⟨0, rfl⟩

theorem seek_down_shape (rows cols : Nat) (b : Board) (ty : Nat) :
    ∀ fuel i, ∃ n, seekInDirection rows cols b .down ty fuel i =
      (List.range n).map (fun k => i + (k + 1) * cols) := by
  intro fuel
  induction fuel with
  | zero => exact fun i => ⟨0, rfl⟩
  | succ m ih =>
    intro i
    rw [seekInDirection_succ]
    by_cases he : detectEdge rows cols .down i
    · rw [if_pos he]
      exact ⟨0, rfl⟩
    · rw [if_neg he]
      split
      · exact ⟨0, rfl⟩
      · rename_i t heq
        by_cases hm : isInMatch t ty
        · rw [if_pos hm]
          rcases ih (stepIndex cols .down i) with ⟨n, hn⟩
          refine ⟨n + 1, ?_⟩
          rw [hn, List.range_succ_eq_map, List.map_cons, List.map_map]
          refine congrArg₂ _ ?_ ?_
          · show stepIndex cols .down i = i + (0 + 1) * cols
            show i + cols = i + (0 + 1) * cols
            rw [Nat.zero_add, Nat.one_mul]
          · refine List.map_congr_left ?_
            intro a _
            show stepIndex cols .down i + (a + 1) * cols = i + (a + 1 + 1) * cols
            show i + cols + (a + 1) * cols = i + (a + 1 + 1) * cols
            ring
        · rw [if_neg hm]
          exact ⟨0, rfl⟩

theorem seek_left_sameRow (rows cols : Nat) (b : Board) (ty : Nat)
    (hc : 0 < cols) :
    ∀ fuel i j, j ∈ seekInDirection rows cols b .left ty fuel i →
      j / cols = i / cols := by
  intro fuel
  induction fuel with
  | zero => intro i j hj; cases hj
  | succ m ih =>
    intro i j hj
    rw [seekInDirection_succ] at hj
    split at hj
    · cases hj
    · rename_i he
      have he' : detectEdge rows cols .left i = false := by simpa using he
      have hmod : i % cols ≠ 0 := by
        have h' : (i % cols == 0) = false := he'
        simpa using h'
      have hstep : (i - 1) / cols = i / cols :=
        (div_pred_of_mod_ne_zero i cols hc hmod).1
      split at hj
      · cases hj
      · split at hj
        · rcases List.mem_cons.mp hj with rfl | hrec
          · exact hstep
          · exact (ih _ j hrec).trans hstep
        · cases hj

theorem seek_right_sameRow (rows cols : Nat) (b : Board) (ty : Nat)
    (hc : 0 < cols) :
    ∀ fuel i j, j ∈ seekInDirection rows cols b .right ty fuel i →
      j / cols = i / cols := by
  intro fuel
  induction fuel with
  | zero => intro i j hj; cases hj
  | succ m ih =>
    intro i j hj
    rw [seekInDirection_succ] at hj
    split at hj
    · cases hj
    · rename_i he
      have he' : detectEdge rows cols .right i = false := by simpa using he
      have hmod : (i + 1) % cols ≠ 0 := by
        have h' : ((i + 1) % cols == 0) = false := he'
        simpa using h'
      have hstep : (i + 1) / cols = i / cols :=
        div_succ_of_mod_ne_zero i cols hc hmod
      split at hj
      · cases hj
      · split at hj
        · rcases List.mem_cons.mp hj with rfl | hrec
          · exact hstep
          · exact (ih _ j hrec).trans hstep
        · cases hj

theorem seek_up_sameCol (rows cols : Nat) (b : Board) (ty : Nat) :
    ∀ fuel i j, j ∈ seekInDirection rows cols b .up ty fuel i →
      j % cols = i % cols := by
  intro fuel
  induction fuel with
  | zero => intro i j hj; cases hj
  | succ m ih =>
    intro i j hj
    rw [seekInDirection_succ] at hj
    split at hj
    · cases hj
    · rename_i he
      have he' : detectEdge rows cols .up i = false := by simpa using he
      rcases edgeUp_false_elim rows cols i he' with ⟨hc, hle⟩
      have hstep : (i - cols) % cols = i % cols :=
        (sub_cols_div i cols hc hle).2
      split at hj
      · cases hj
      · split at hj
        · rcases List.mem_cons.mp hj with rfl | hrec
          · exact hstep
          · exact (ih _ j hrec).trans hstep
        · cases hj

theorem seek_down_sameCol (rows cols : Nat) (b : Board) (ty : Nat) :
    ∀ fuel i j, j ∈ seekInDirection rows cols b .down ty fuel i →
      j % cols = i % cols := by
  intro fuel
  induction fuel with
  | zero => intro i j hj; cases hj
  | succ m ih =>
    intro i j hj
    rw [seekInDirection_succ] at hj
    split at hj
    · cases hj
    · have hstep : (i + cols) % cols = i % cols := Nat.add_mod_right i cols
      split at hj
      · cases hj
      · split at hj
        · rcases List.mem_cons.mp hj with rfl | hrec
          · exact hstep
          · exact (ih _ j hrec).trans hstep
        · cases hj

theorem seek_mem_props (rows cols : Nat) (b : Board) (dir : Direction)
    (ty : Nat) :
    ∀ fuel i j, j ∈ seekInDirection rows cols b dir ty fuel i →
      ∃ t, b.get? j = some t ∧ t.isHidden = false ∧ t.type = ty := by
  intro fuel
  induction fuel with
  | zero => intro i j hj; cases hj
  | succ m ih =>
    intro i j hj
    rw [seekInDirection_succ] at hj
    split at hj
    · cases hj
    · split at hj
      · cases hj
      · rename_i t heq
        split at hj
        · rename_i hm
          rcases List.mem_cons.mp hj with rfl | hrec
          · refine ⟨t, heq, ?_⟩
            have hm' : (!t.isHidden && t.type == ty) = true := hm
            simpa using hm'
          · exact ih _ j hrec
        · cases hj

theorem seek_stops_at_hidden (rows cols : Nat) (b : Board) (dir : Direction)
    (ty i fuel : Nat) (t : GameTile)
    (hg : b.get? (stepIndex cols dir i) = some t) (hh : t.isHidden = true) :
    seekInDirection rows cols b dir ty fuel i = [] := by
  cases fuel with
  | zero => rfl
  | succ m =>
    rw [seekInDirection_succ]
    by_cases he : detectEdge rows cols dir i
    · rw [if_pos he]
    · rw [if_neg he]
      simp only [hg]
      have hm : isInMatch t ty = false := by simp [isInMatch, hh]
      rw [hm]
      simp

theorem seekFrom_eq (rows cols : Nat) (b : Board) (dir : Direction)
    (ty i : Nat) :
    seekFrom rows cols b dir ty i =
      seekInDirection rows cols b dir ty (rows * cols) i := rfl

theorem detectMatchXY_some_elim (rows cols : Nat) (b : Board) (idx : Nat)
    (m : MatchInfo) (h : detectMatchXY rows cols b idx = some m) :
    (m.alongX = none ∨
      m.alongX = some (seekFrom rows cols b .left (typeAt b idx) idx ++
        idx :: seekFrom rows cols b .right (typeAt b idx) idx)) ∧
    (m.alongY = none ∨
      m.alongY = some (seekFrom rows cols b .up (typeAt b idx) idx ++
        idx :: seekFrom rows cols b .down (typeAt b idx) idx)) ∧
    (3 ≤ (m.alongX.map List.length).getD 0 ∨
      3 ≤ (m.alongY.map List.length).getD 0) := by
  simp only [detectMatchXY] at h
  split at h
  · split at h
    · split at h
      · rename_i hcond
        rw [Option.some.injEq] at h
        subst h
        exact ⟨Or.inr rfl, Or.inr rfl, hcond⟩
      · cases h
    · split at h
      · rename_i hcond
        rw [Option.some.injEq] at h
        subst h
        exact ⟨Or.inr rfl, Or.inl rfl, hcond⟩
      · cases h
  · split at h
    · split at h
      · rename_i hcond
        rw [Option.some.injEq] at h
        subst h
        exact ⟨Or.inl rfl, Or.inr rfl, hcond⟩
      · cases h
    · split at h
      · rename_i hcond
        rw [Option.some.injEq] at h
        subst h
        exact ⟨Or.inl rfl, Or.inl rfl, hcond⟩
      · cases h

/-- C7: for every grid and position, the directional walk of match detection
never crosses a grid edge: every position of a non-null `alongX` lies in the
starting position's row and every position of a non-null `alongY` lies in its
column, so no neighbor reached by wrapping around a row or column boundary is
ever included (the edge test is applied to the current index before each
step). -/
theorem detect_no_wraparound (rows cols : Nat) (b : Board) (i : Nat)
    (m : MatchInfo) (hc : 0 < cols) (h : detectMatchXY rows cols b i = some m) :
    (∀ xs, m.alongX = some xs → ∀ j ∈ xs, j / cols = i / cols) ∧
    (∀ ys, m.alongY = some ys → ∀ j ∈ ys, j % cols = i % cols) := by
  rcases detectMatchXY_some_elim rows cols b i m h with ⟨hx, hy, _⟩
  constructor
  · intro xs hxs j hj
    rcases hx with hx | hx
    · rw [hx] at hxs
      cases hxs
    · rw [hx, Option.some.injEq] at hxs
      rw [← hxs] at hj
      rcases List.mem_append.mp hj with hjl | hjr
    
      · exact seek_left_sameRow rows cols b _ hc _ i j hjl
      · rcases List.mem_cons.mp hjr with rfl | hjr
        · rfl
        · exact seek_right_sameRow rows cols b _ hc _ i j hjr
  · intro ys hys j hj
    rcases hy with hy | hy
    · rw [hy] at hys
      cases hys
    · rw [hy, Option.some.injEq] at hys
      rw [← hys] at hj
      rcases List.mem_append.mp hj with hjl | hjr
    
      · exact seek_up_sameCol rows cols b _ _ i j hjl
      · rcases List.mem_cons.mp hjr with rfl | hjr
        · rfl
        · exact seek_down_sameCol rows cols b _ _ i j hjr

theorem detect_no_wraparound_witness :
    0 < 3 ∧ detectMatchXY 1 3 b3row 0 = some ⟨some [0, 1, 2], none⟩ ∧
    (2 : Nat) / 3 = 0 / 3 := by
  refine ⟨by decide, by decide, ?_⟩
  exact (detect_no_wraparound 1 3 b3row 0 ⟨some [0, 1, 2], none⟩ (by decide)
    (by decide)).1 [0, 1, 2] rfl 2 (by decide)

/-- C8: every position yielded by a directional walk holds a visible tile of
the picked type, and the walk yields nothing past a hidden neighbor: if the
tile one step from the start is hidden, the run in that direction is empty no
matter what lies beyond — hidden tiles are never treated as transparent. -/
theorem hidden_terminates_seek (rows cols : Nat) (b : Board) (dir : Direction)
    (ty i : Nat) :
    (∀ j ∈ seekFrom rows cols b dir ty i,
      ∃ t, b.get? j = some t ∧ t.isHidden = false ∧ t.type = ty) ∧
    (∀ t, b.get? (stepIndex cols dir i) = some t → t.isHidden = true →
      seekFrom rows cols b dir ty i = []) := by
  constructor
  · intro j hj
    exact seek_mem_props rows cols b dir ty _ i j hj
  · intro t hg hh
    exact seek_stops_at_hidden rows cols b dir ty i _ t hg hh

theorem hidden_terminates_seek_witness :
    bC8.get? 1 = some ⟨1, 1, true⟩ ∧ bC8.get? 2 = some ⟨2, 1, false⟩ ∧
    seekFrom 1 3 bC8 .right 1 0 = [] := by
  refine ⟨by decide, by decide, ?_⟩
  exact (hidden_terminates_seek 1 3 bC8 .right 1 0).2 ⟨1, 1, true⟩ (by decide) rfl

/-- C3 counterexample: on a 1x3 row of same-type visible tiles, detection
around index 2 produces `alongX = [1, 0, 2]` — the left run in walk order
(not reversed), then the center — which is not ascending, contradicting the
claim that `alongX` is ordered leftmost to rightmost. -/
theorem alongX_not_sorted_counterexample :
    detectMatchXY 1 3 b3row 2 = some ⟨some [1, 0, 2], none⟩ ∧
    ¬ List.Sorted (· ≤ ·) [1, 0, 2] := by
  exact ⟨by decide, by decide⟩

/-- C3 (amended): a non-null `alongX` is the left run in walk order (indices
descending one by one from `index - 1`), then the center index, then the
right run ascending; likewise `alongY` with the up run descending by `cols`
and the down run ascending by `cols`.  The source does not reverse the
left/up runs, so the sequence is generally not in ascending grid order. -/
theorem detect_axis_walk_order (rows cols : Nat) (b : Board) (i : Nat)
    (m : MatchInfo) (h : detectMatchXY rows cols b i = some m) :
    (∀ xs, m.alongX = some xs → ∃ nL nR,
      xs = (List.range nL).map (fun k => i - (k + 1)) ++
        i :: (List.range nR).map (fun k => i + (k + 1))) ∧
    (∀ ys, m.alongY = some ys → ∃ nU nD,
      ys = (List.range nU).map (fun k => i - (k + 1) * cols) ++
        i :: (List.range nD).map (fun k => i + (k + 1) * cols)) := by
  rcases detectMatchXY_some_elim rows cols b i m h with ⟨hx, hy, _⟩
  constructor
  · intro xs hxs
    rcases hx with hx | hx
    · rw [hx] at hxs
      cases hxs
    · rw [hx, Option.some.injEq] at hxs
      rcases seek_left_shape rows cols b (typeAt b i) (rows * cols) i with ⟨nL, hL⟩
      rcases seek_right_shape rows cols b (typeAt b i) (rows * cols) i with ⟨nR, hR⟩
      refine ⟨nL, nR, ?_⟩
      rw [← hxs, seekFrom_eq, seekFrom_eq, hL, hR]
  · intro ys hys
    rcases hy with hy | hy
    · rw [hy] at hys
      cases hys
    · rw [hy, Option.some.injEq] at hys
      rcases seek_up_shape rows cols b (typeAt b i) (rows * cols) i with ⟨nU, hU⟩
      rcases seek_down_shape rows cols b (typeAt b i) (rows * cols) i with ⟨nD, hD⟩
      refine ⟨nU, nD, ?_⟩
      rw [← hys, seekFrom_eq, seekFrom_eq, hU, hD]

theorem detect_axis_walk_order_witness :
    detectMatchXY 1 3 b3row 2 = some ⟨some [1, 0, 2], none⟩ ∧
    (∃ nL nR, [1, 0, 2] =
      (List.range nL).map (fun k => 2 - (k + 1)) ++
        2 :: (List.range nR).map (fun k => 2 + (k + 1))) := by
  refine ⟨by decide, ?_⟩
  exact (detect_axis_walk_order 1 3 b3row 2 ⟨some [1, 0, 2], none⟩
    (by decide)).1 [1, 0, 2] rfl

theorem comboPositions_sorted_lt (m1 m2 : Option MatchInfo) :
    List.Sorted (· < ·) (comboPositions m1 m2) := by
  unfold comboPositions
  refine List.Sorted.lt_of_le (List.sorted_insertionSort _ _) ?_
  rw [(List.perm_insertionSort _ _).nodup_iff]
  exact List.nodup_dedup _

theorem mem_comboPositions (m1 m2 : Option MatchInfo) (q : Nat) :
    q ∈ comboPositions m1 m2 ↔
      (∃ mi, m1 = some mi ∧ (q ∈ mi.alongX.getD [] ∨ q ∈ mi.alongY.getD [])) ∨
      (∃ mi, m2 = some mi ∧ (q ∈ mi.alongX.getD [] ∨ q ∈ mi.alongY.getD [])) := by
  cases m1 <;> cases m2 <;>
    simp [comboPositions, List.mem_insertionSort, List.mem_dedup,
      List.mem_append, or_assoc]

/-- C2 counterexample: on the 3x3 board `bC2` the matches merged around
indices 1 and 2 produce the combo `[0, 1, 4, 7]`, but position 0 belongs to
no run of length ≥ 3 of visible same-type tiles: its maximal horizontal run
is `[0, 1]` (length 2, included only because the vertical axis around index 1
qualified) and its maximal vertical run has length 1. -/
theorem combo_run3_counterexample :
    calculateMatchByUserSelection 3 3 bC2 1 2 = some [0, 1, 4, 7] ∧
    (0 : Nat) ∈ [0, 1, 4, 7] ∧ ¬ memberOfRun3 3 3 bC2 0 := by
  exact ⟨by decide, by decide, by decide⟩

/-- C2 (amended): the combo produced by the merge step is strictly ascending
(deduplicated, document order) and every position in it comes from a non-null
`alongX`/`alongY` sequence of one of the merged MatchInfos, each of which has
at least one axis of length ≥ 3; a position may however lie only on the other
(shorter than 3) axis of its MatchInfo, so it need not belong to any run of
length ≥ 3 itself. -/
theorem combo_positions_from_matched_axes (rows cols : Nat) (b : Board)
    (pIdx tIdx : Nat) (combo : List Nat)
    (h : calculateMatchByUserSelection rows cols b pIdx tIdx = some combo) :
    List.Sorted (· < ·) combo ∧
    ∀ q ∈ combo, ∃ idx m, (idx = pIdx ∨ idx = tIdx) ∧
      detectMatchXY rows cols b idx = some m ∧
      ((∃ xs, m.alongX = some xs ∧ q ∈ xs) ∨
        (∃ ys, m.alongY = some ys ∧ q ∈ ys)) ∧
      (3 ≤ (m.alongX.map List.length).getD 0 ∨
        3 ≤ (m.alongY.map List.length).getD 0) := by
  simp only [calculateMatchByUserSelection] at h
  split at h
  · rw [Option.some.injEq] at h
    subst h
    refine ⟨comboPositions_sorted_lt _ _, ?_⟩
    intro q hq
    rcases (mem_comboPositions _ _ q).mp hq with ⟨mi, hmi, hax⟩ | ⟨mi, hmi, hax⟩
    · refine ⟨pIdx, mi, Or.inl rfl, hmi, ?_, (detectMatchXY_some_elim rows cols b pIdx mi hmi).2.2⟩
      rcases hax with hax | hax
      · rcases hmx : mi.alongX with _ | xs
        · rw [hmx] at hax
          cases hax
        · rw [hmx] at hax
          exact Or.inl ⟨xs, rfl, hax⟩
      · rcases hmy : mi.alongY with _ | ys
        · rw [hmy] at hax
          cases hax
        · rw [hmy] at hax
          exact Or.inr ⟨ys, rfl, hax⟩
    · refine ⟨tIdx, mi, Or.inr rfl, hmi, ?_, (detectMatchXY_some_elim rows cols b tIdx mi hmi).2.2⟩
      rcases hax with hax | hax
      · rcases hmx : mi.alongX with _ | xs
        · rw [hmx] at hax
          cases hax
        · rw [hmx] at hax
          exact Or.inl ⟨xs, rfl, hax⟩
      · rcases hmy : mi.alongY with _ | ys
        · rw [hmy] at hax
          cases hax
        · rw [hmy] at hax
          exact Or.inr ⟨ys, rfl, hax⟩
  · cases h

theorem combo_positions_from_matched_axes_witness :
    calculateMatchByUserSelection 3 3 bC2 1 2 = some [0, 1, 4, 7] ∧
    (∃ idx m, (idx = 1 ∨ idx = 2) ∧
      detectMatchXY 3 3 bC2 idx = some m ∧
      ((∃ xs, m.alongX = some xs ∧ 0 ∈ xs) ∨
        (∃ ys, m.alongY = some ys ∧ 0 ∈ ys)) ∧
      (3 ≤ (m.alongX.map List.length).getD 0 ∨
        3 ≤ (m.alongY.map List.length).getD 0)) := by
  refine ⟨by decide, ?_⟩
  exact (combo_positions_from_matched_axes 3 3 bC2 1 2 [0, 1, 4, 7]
    (by decide)).2 0 (by decide)

/-- C9: attempting the user-selection swap with either selected tile unset
yields the raised developer error, while a swap between two set positions
always yields an ordinary `.ok` result whose combo component is simply the
(possibly null) match calculation — a no-combo swap is a negative result, not
an error. -/
theorem swap_unset_errors_no_combo_ok (rows cols : Nat) (b : Board)
    (picked target : Option Nat) :
    ((picked = none ∨ target = none) →
      ∃ msg, attemptSwapResolution rows cols b picked target = .error msg) ∧
    (∀ p t, picked = some p → target = some t →
      attemptSwapResolution rows cols b picked target =
        .ok (swapTiles b p t,
          calculateMatchByUserSelection rows cols (swapTiles b p t)
            (posOf (swapTiles b p t) p) (posOf (swapTiles b p t) t))) := by
  constructor
  · intro h
    rcases picked with _ | p <;> rcases target with _ | t
    · exact ⟨_, rfl⟩
    · exact ⟨_, rfl⟩
    · exact ⟨_, rfl⟩
    · rcases h with h | h <;> cases h
  · intro p t hp ht
    subst hp
    subst ht
    rfl

theorem swap_unset_errors_no_combo_ok_witness :
    ∃ msg, attemptSwapResolution 1 2 b12 none (some 1) = .error msg := by
  exact (swap_unset_errors_no_combo_ok 1 2 b12 none (some 1)).1 (Or.inl rfl)

/-- C4 (code bug evaluation): on a 2x2 board, after picking the tile at index
1 (end of row 0), clicking the tile at index 2 (start of row 1) is accepted:
the index difference is +1 so `#isSecondTileOnSide` answers `right` and the
tile becomes the target, although the two positions are not cardinal
neighbors — the adjacency test wraps across the row boundary. -/
theorem wrap_pair_accepted_bug :
    (tileClickHandler 2 2 ⟨b22, none, none⟩ 1).picked = some 1 ∧
    (manageAndValidateSelection 2 (tileClickHandler 2 2 ⟨b22, none, none⟩ 1) 2).1.picked = some 1 ∧
    (manageAndValidateSelection 2 (tileClickHandler 2 2 ⟨b22, none, none⟩ 1) 2).1.target = some 2 ∧
    (manageAndValidateSelection 2 (tileClickHandler 2 2 ⟨b22, none, none⟩ 1) 2).2 = some .right ∧
    posOf (tileClickHandler 2 2 ⟨b22, none, none⟩ 1).board 1 = 1 ∧
    posOf (tileClickHandler 2 2 ⟨b22, none, none⟩ 1).board 2 = 2 ∧
    ¬ cardinallyAdjacent 2 1 2 := by
  decide

/-- C5 (code bug evaluation): on a 1x4 board, clicking tiles 0 and 1 performs
an adjacent no-combo swap (state keeps `picked = 0`, `target = 1`, board
swapped, revert scheduled); a third click on tile 2 before the revert fires
resets the selection to `picked = 2`, `target = none`; when the scheduled
revert then fires it reads the live selection, raises the developer error,
and the board is left in the swapped state instead of being restored. -/
theorem revert_after_second_click_bug :
    (runEvents 1 4 ⟨b14, none, none⟩ [.click 0, .click 1]).board ≠ b14 ∧
    (runEvents 1 4 ⟨b14, none, none⟩ [.click 0, .click 1]).picked = some 0 ∧
    (runEvents 1 4 ⟨b14, none, none⟩ [.click 0, .click 1]).target = some 1 ∧
    (runEvents 1 4 ⟨b14, none, none⟩ [.click 0, .click 1, .click 2]).picked = some 2 ∧
    (runEvents 1 4 ⟨b14, none, none⟩ [.click 0, .click 1, .click 2]).target = none ∧
    fireRevert (runEvents 1 4 ⟨b14, none, none⟩ [.click 0, .click 1, .click 2]) =
      .error "Developer error: tile swapping failed: at least one of the subjected tiles is not set." ∧
    (stepEvent 1 4 (runEvents 1 4 ⟨b14, none, none⟩ [.click 0, .click 1, .click 2])
      .revertTimer).board ≠ b14 := by
  decide

/-- C10 counterexample: clicking the picked tile itself — a tile whose type
trivially equals the picked tile's type — does not make it the new picked
tile: the selection is cleared entirely (`picked` becomes `none`). -/
theorem same_type_click_counterexample :
    (tileClickHandler 1 2 ⟨b12, none, none⟩ 0).picked = some 0 ∧
    (tileClickHandler 1 2 (tileClickHandler 1 2 ⟨b12, none, none⟩ 0) 0).picked = none ∧
    (tileClickHandler 1 2 (tileClickHandler 1 2 ⟨b12, none, none⟩ 0) 0).target = none := by
  decide

theorem bubblePass_eq (rows cols : Nat) (b : Board) (pending : List Nat) :
    bubblePass rows cols b pending =
      pending.foldl (bubbleStep rows cols) (b, []) := rfl

theorem bubbleStep_none (rows cols : Nat) (b : Board) (kept : List Nat)
    (tid : Nat) (h : tryGetFallingTile rows cols b (posOf b tid) = none) :
    bubbleStep rows cols (b, kept) tid = (b, kept) := by
  unfold bubbleStep
  simp only [h]

theorem bubbleStep_some (rows cols : Nat) (b : Board) (kept : List Nat)
    (tid : Nat) (tf : GameTile)
    (h : tryGetFallingTile rows cols b (posOf b tid) = some tf) :
    bubbleStep rows cols (b, kept) tid = (swapTiles b tid tf.id, kept ++ [tid]) := by
  unfold bubbleStep
  simp only [h]

theorem tryGetFallingTile_some_elim (rows cols : Nat) (b : Board) (i : Nat)
    (tf : GameTile) (h : tryGetFallingTile rows cols b i = some tf) :
    detectEdge rows cols .up i = false ∧ b.get? (i - cols) = some tf ∧
    tf.isHidden = false := by
  unfold tryGetFallingTile at h
  by_cases he : detectEdge rows cols .up i
  · rw [if_pos he] at h
    cases h
  · rw [if_neg he] at h
    rcases hg : b.get? (stepIndex cols .up i) with _ | t
    · simp only [hg] at h
      cases h
    · simp only [hg] at h
      by_cases hh : t.isHidden
      · rw [if_pos hh] at h
        cases h
      · rw [if_neg hh] at h
        injection h with h
        subst h
        exact ⟨by simpa using he, hg, by simpa using hh⟩

theorem tryGetFallingTile_none_elim (rows cols : Nat) (b : Board) (i : Nat)
    (h : tryGetFallingTile rows cols b i = none) :
    detectEdge rows cols .up i = true ∨ b.get? (i - cols) = none ∨
    ∃ t, b.get? (i - cols) = some t ∧ t.isHidden = true := by
  unfold tryGetFallingTile at h
  by_cases he : detectEdge rows cols .up i
  · exact Or.inl he
  · rw [if_neg he] at h
    rcases hg : b.get? (stepIndex cols .up i) with _ | t
    · exact Or.inr (Or.inl hg)
    · simp only [hg] at h
      by_cases hh : t.isHidden
      · exact Or.inr (Or.inr ⟨t, hg, hh⟩)
      · rw [if_neg hh] at h
        cases h

theorem hiddenId_hasId (b : Board) (tid : Nat) (h : HiddenId b tid) :
    HasId b tid := by
  rcases h with ⟨t, ht, htid, _⟩
  exact ⟨t, ht, htid⟩

theorem posOf_hidden (b : Board) (tid : Nat) (hInj : IdsInjective b)
    (h : HiddenId b tid) :
    ∃ t, b.get? (posOf b tid) = some t ∧ t.id = tid ∧ t.isHidden = true := by
  rcases h with ⟨t, ht, htid, hhid⟩
  rcases List.mem_iff_get?.mp ht with ⟨k, hk⟩
  have := posOf_eq b tid k t hInj hk htid
  exact ⟨t, this ▸ hk, htid, hhid⟩

theorem measureOf_nil (cols : Nat) (b : Board) : measureOf cols b [] = 0 := rfl

theorem measureOf_cons (cols : Nat) (b : Board) (tid : Nat) (s : List Nat) :
    measureOf cols b (tid :: s) =
      (posOf b tid / cols + 1) + measureOf cols b s := by
  simp [measureOf]

theorem measureOf_append (cols : Nat) (b : Board) (s1 s2 : List Nat) :
    measureOf cols b (s1 ++ s2) = measureOf cols b s1 + measureOf cols b s2 := by
  simp [measureOf]

theorem measureOf_congr (cols : Nat) (b1 b2 : Board) (s : List Nat)
    (h : ∀ x ∈ s, posOf b1 x = posOf b2 x) :
    measureOf cols b1 s = measureOf cols b2 s := by
  unfold measureOf
  rw [List.map_congr_left (fun x hx => by rw [h x hx])]

theorem measureOf_ge_length (cols : Nat) (b : Board) (s : List Nat) :
    s.length ≤ measureOf cols b s := by
  induction s with
  | nil => exact Nat.le_refl 0
  | cons tid rest ih =>
    rw [measureOf_cons, List.length_cons]
    generalize posOf b tid / cols = q
    omega

theorem measureOf_le_rows (rows cols : Nat) (b : Board)
    (hlen : b.length ≤ rows * cols) :
    ∀ s : List Nat, (∀ tid ∈ s, HasId b tid) →
      measureOf cols b s ≤ rows * s.length := by
  intro s
  induction s with
  | nil => intro _; exact Nat.le_refl 0
  | cons tid rest ih =>
    intro hs
    have hpos : posOf b tid < rows * cols :=
      Nat.lt_of_lt_of_le (posOf_lt_length b tid (hs tid (by simp))) hlen
    have hc : 0 < cols := by
      rcases Nat.eq_zero_or_pos cols with hc | hc
      · rw [hc, Nat.mul_zero] at hpos
        cases Nat.not_lt_zero _ hpos
      · exact hc
    have hterm : posOf b tid / cols + 1 ≤ rows :=
      Nat.succ_le_of_lt ((Nat.div_lt_iff_lt_mul hc).mpr hpos)
    have hrec := ih (fun x hx => hs x (by simp [hx]))
    rw [measureOf_cons, List.length_cons, Nat.mul_succ]
    generalize hq : posOf b tid / cols = q at hterm
    omega

theorem bubbleStep_falls (rows cols : Nat) (b : Board) (tid : Nat)
    (tf : GameTile) (hInj : IdsInjective b) (hhid : HiddenId b tid)
    (htf : tryGetFallingTile rows cols b (posOf b tid) = some tf) :
    IdsInjective (swapTiles b tid tf.id) ∧
    (swapTiles b tid tf.id).length = b.length ∧
    (∀ x, HiddenId b x → HiddenId (swapTiles b tid tf.id) x) ∧
    posOf (swapTiles b tid tf.id) tid + cols = posOf b tid ∧
    0 < cols ∧ cols ≤ posOf b tid ∧
    (∀ x, HiddenId b x → x ≠ tid →
      posOf (swapTiles b tid tf.id) x = posOf b x) := by
  rcases tryGetFallingTile_some_elim rows cols b (posOf b tid) tf htf with
    ⟨hedge, hget, hvis⟩
  rcases edgeUp_false_elim rows cols (posOf b tid) hedge with ⟨hc, hcle⟩
  have hHas : HasId b tid := hiddenId_hasId b tid hhid
  have hi : posOf b tid < b.length := posOf_lt_length b tid hHas
  have hj : posOf b tid - cols < b.length := Nat.lt_of_le_of_lt (Nat.sub_le _ _) hi
  have hposf : posOf b tf.id = posOf b tid - cols :=
    posOf_eq b tf.id (posOf b tid - cols) tf hInj hget rfl
  have hswap : swapTiles b tid tf.id = swapAt b (posOf b tid) (posOf b tid - cols) := by
    unfold swapTiles
    rw [hposf]
  rcases posOf_hidden b tid hInj hhid with ⟨t0, ht0, ht0id, ht0hid⟩
  refine ⟨?_, ?_, ?_, ?_, hc, hcle, ?_⟩
  · rw [hswap]
    exact idsInjective_swapAt b _ _ hInj
  · rw [hswap]
    exact swapAt_length b _ _
  · intro x hx
    rw [hswap]
    exact (hiddenId_swapAt b _ _ x).mpr hx
  · rw [hswap, posOf_swapAt b _ _ tid hInj hHas hi hj, if_pos rfl]
    exact Nat.sub_add_cancel hcle
  · intro x hx hne
    have hHasx : HasId b x := hiddenId_hasId b x hx
    rcases posOf_hidden b x hInj hx with ⟨u, hu, huid, huhid⟩
    have hxi : posOf b x ≠ posOf b tid := by
      intro hc2
      rw [hc2, ht0] at hu
      injection hu with hu
      exact hne (by rw [← huid, ← hu, ht0id])
    have hxj : posOf b x ≠ posOf b tid - cols := by
      intro hc2
      rw [hc2, hget] at hu
      injection hu with hu
      rw [← hu, hvis] at huhid
      cases huhid
    rw [hswap, posOf_swapAt b _ _ x hInj hHasx hi hj, if_neg hxi, if_neg hxj]

theorem bubbleFold_main (rows cols : Nat) :
    ∀ (pending : List Nat) (b : Board) (kept : List Nat),
      IdsInjective b →
      (∀ tid ∈ pending, HiddenId b tid) →
      (∀ tid ∈ kept, HiddenId b tid) →
      pending.Nodup → kept.Nodup →
      (∀ x ∈ kept, x ∉ pending) →
      IdsInjective (pending.foldl (bubbleStep rows cols) (b, kept)).1 ∧
      (pending.foldl (bubbleStep rows cols) (b, kept)).1.length = b.length ∧
      (∀ tid ∈ (pending.foldl (bubbleStep rows cols) (b, kept)).2,
        HiddenId (pending.foldl (bubbleStep rows cols) (b, kept)).1 tid) ∧
      (pending.foldl (bubbleStep rows cols) (b, kept)).2.Nodup ∧
      measureOf cols (pending.foldl (bubbleStep rows cols) (b, kept)).1
          (pending.foldl (bubbleStep rows cols) (b, kept)).2 +
        pending.length ≤
        measureOf cols b kept + measureOf cols b pending := by
  intro pending
  induction pending with
  | nil =>
    intro b kept hInj hpend hkept hnd hknd hdisj
    refine ⟨hInj, rfl, hkept, hknd, ?_⟩
    show measureOf cols b kept + List.length ([] : List Nat) ≤
      measureOf cols b kept + measureOf cols b []
    simp [measureOf_nil]
  | cons tid rest ih =>
    intro b kept hInj hpend hkept hnd hknd hdisj
    rw [List.foldl_cons]
    have hhidtid : HiddenId b tid := hpend tid (List.mem_cons_self tid rest)
    have htidrest : tid ∉ rest := (List.nodup_cons.mp hnd).1
    have hrestnd : rest.Nodup := (List.nodup_cons.mp hnd).2
    rcases htf : tryGetFallingTile rows cols b (posOf b tid) with _ | tf
    · rw [bubbleStep_none rows cols b kept tid htf]
      have IH := ih b kept hInj (fun x hx => hpend x (List.mem_cons_of_mem _ hx))
        hkept hrestnd hknd
        (fun x hx hx2 => hdisj x hx (List.mem_cons_of_mem _ hx2))
      refine ⟨IH.1, IH.2.1, IH.2.2.1, IH.2.2.2.1, ?_⟩
      have hμ := IH.2.2.2.2
      rw [measureOf_cons, List.length_cons]
      generalize posOf b tid / cols = q
      omega
    · obtain ⟨hInj1, hlen1, hpres, hpos1, hc, hcle, hothers⟩ :=
        bubbleStep_falls rows cols b tid tf hInj hhidtid htf
      rw [bubbleStep_some rows cols b kept tid tf htf]
      have hpend1 : ∀ x ∈ rest, HiddenId (swapTiles b tid tf.id) x :=
        fun x hx => hpres x (hpend x (List.mem_cons_of_mem _ hx))
      have hkept1 : ∀ x ∈ kept ++ [tid], HiddenId (swapTiles b tid tf.id) x := by
        intro x hx
        rcases List.mem_append.mp hx with hx | hx
        · exact hpres x (hkept x hx)
        · rw [List.mem_singleton.mp hx]
          exact hpres tid hhidtid
      have hknd1 : (kept ++ [tid]).Nodup := by
        refine List.Nodup.append hknd (List.nodup_singleton tid) ?_
        intro a ha hb
        exact hdisj a ha
          (by rw [List.mem_singleton.mp hb]; exact List.mem_cons_self _ _)
      have hdisj1 : ∀ x ∈ kept ++ [tid], x ∉ rest := by
        intro x hx
        rcases List.mem_append.mp hx with hx | hx
        · exact fun hr => hdisj x hx (List.mem_cons_of_mem _ hr)
        · rw [List.mem_singleton.mp hx]
          exact htidrest
      have IH := ih (swapTiles b tid tf.id) (kept ++ [tid]) hInj1 hpend1 hkept1
        hrestnd hknd1 hdisj1
      refine ⟨IH.1, IH.2.1.trans hlen1, IH.2.2.1, IH.2.2.2.1, ?_⟩
      have hμ := IH.2.2.2.2
      have hkeptstable :
          measureOf cols (swapTiles b tid tf.id) kept = measureOf cols b kept :=
        measureOf_congr _ _ _ _ (fun x hx => hothers x (hkept x hx)
          (fun hx2 => hdisj x hx (hx2 ▸ List.mem_cons_self _ _)))
      have hreststable :
          measureOf cols (swapTiles b tid tf.id) rest = measureOf cols b rest :=
        measureOf_congr _ _ _ _
          (fun x hx => hothers x (hpend x (List.mem_cons_of_mem _ hx))
            (fun hx2 => htidrest (hx2 ▸ hx)))
      rw [measureOf_append, measureOf_cons, measureOf_nil, hkeptstable,
        hreststable] at hμ
      have hdiv : posOf b tid / cols =
          posOf (swapTiles b tid tf.id) tid / cols + 1 := by
        rw [← hpos1]
        exact Nat.add_div_right _ hc
      rw [measureOf_cons, List.length_cons]
      generalize posOf (swapTiles b tid tf.id) tid / cols = q1 at hμ hdiv
      generalize posOf b tid / cols = q2 at hdiv ⊢
      omega

theorem bubbleLoop_reaches_empty (rows cols : Nat) :
    ∀ fuel (b : Board) (s : List Nat), IdsInjective b →
      (∀ tid ∈ s, HiddenId b tid) → s.Nodup →
      measureOf cols b s ≤ fuel →
      (bubbleLoop rows cols fuel b s).2 = [] := by
  intro fuel
  induction fuel with
  | zero =>
    intro b s hInj hhid hnd hμ
    have hlen := measureOf_ge_length cols b s
    have hs : s = [] := List.length_eq_zero.mp (by omega)
    subst hs
    rfl
  | succ m ih =>
    intro b s hInj hhid hnd hμ
    by_cases hs : s.isEmpty
    · have hs' : s = [] := by
        rcases s with _ | ⟨a, s⟩
        · rfl
        · cases hs
      subst hs'
      rfl
    · show (bubbleLoop rows cols (m + 1) b s).2 = []
      unfold bubbleLoop
      rw [if_neg hs, bubblePass_eq]
      have hmain := bubbleFold_main rows cols s b [] hInj hhid
        (fun x hx => absurd hx (List.not_mem_nil x)) hnd List.nodup_nil
        (fun x hx => absurd hx (List.not_mem_nil x))
      obtain ⟨hInj', hlen', hhid', hnd', hμ'⟩ := hmain
      have hslen : 1 ≤ s.length := by
        rcases s with _ | ⟨a, s⟩
        · cases hs rfl
        · simp
      rw [measureOf_nil] at hμ'
      exact ih _ _ hInj' hhid' hnd' (by omega)

/-- C6: the cascade loop terminates.  Each processed working-set tile is
either removed from the set or keeps its membership while its position moves
exactly one row closer to the top edge (second conjunct); consequently the
per-pass measure (sum of row+1 over the working set) drops by at least the
set size, and `rows * |initial set|` passes always empty the working set
(first conjunct). -/
theorem cascade_terminates (rows cols : Nat) (b : Board) (s : List Nat)
    (hnd0 : NodupIds b) (hlen : b.length ≤ rows * cols)
    (hhid : ∀ tid ∈ s, HiddenId b tid) (hnd : s.Nodup) :
    (bubbleLoop rows cols (rows * s.length) b s).2 = [] ∧
    (∀ kept tid, HiddenId b tid →
      (bubbleStep rows cols (b, kept) tid).2 = kept ∨
      ((bubbleStep rows cols (b, kept) tid).2 = kept ++ [tid] ∧
        posOf (bubbleStep rows cols (b, kept) tid).1 tid + cols =
          posOf b tid)) := by
  have hInj : IdsInjective b := (nodupIds_iff_idsInjective b).mp hnd0
  constructor
  · refine bubbleLoop_reaches_empty rows cols _ b s hInj hhid hnd ?_
    exact measureOf_le_rows rows cols b hlen s
      (fun tid ht => hiddenId_hasId b tid (hhid tid ht))
  · intro kept tid hhidtid
    rcases htf : tryGetFallingTile rows cols b (posOf b tid) with _ | tf
    · left
      rw [bubbleStep_none rows cols b kept tid htf]
    · right
      obtain ⟨_, _, _, hpos1, _, _, _⟩ :=
        bubbleStep_falls rows cols b tid tf hInj hhidtid htf
      rw [bubbleStep_some rows cols b kept tid tf htf]
      exact ⟨rfl, hpos1⟩

theorem cascade_terminates_witness :
    NodupIds bCas ∧ (∀ tid ∈ [1, 2], HiddenId bCas tid) ∧
    (bubbleLoop 3 1 (3 * [1, 2].length) bCas [1, 2]).2 = [] := by
  refine ⟨by decide, by decide, ?_⟩
  exact (cascade_terminates 3 1 bCas [1, 2] (by decide) (by decide) (by decide)
    (by decide)).1

theorem bubbleFold_kept_mono (rows cols : Nat) :
    ∀ (pending : List Nat) (b : Board) (kept : List Nat) (x : Nat),
      x ∈ kept → x ∈ (pending.foldl (bubbleStep rows cols) (b, kept)).2 := by
  intro pending
  induction pending with
  | nil => intro b kept x hx; exact hx
  | cons tid rest ih =>
    intro b kept x hx
    rw [List.foldl_cons]
    rcases htf : tryGetFallingTile rows cols b (posOf b tid) with _ | tf
    · rw [bubbleStep_none rows cols b kept tid htf]
      exact ih b kept x hx
    · rw [bubbleStep_some rows cols b kept tid tf htf]
      exact ih _ _ x (List.mem_append_left _ hx)

theorem bubbleFold_kept_from (rows cols : Nat) :
    ∀ (pending : List Nat) (b : Board) (kept : List Nat) (x : Nat),
      x ∈ (pending.foldl (bubbleStep rows cols) (b, kept)).2 →
      x ∈ kept ∨ x ∈ pending := by
  intro pending
  induction pending with
  | nil => intro b kept x hx; exact Or.inl hx
  | cons tid rest ih =>
    intro b kept x hx
    rw [List.foldl_cons] at hx
    rcases htf : tryGetFallingTile rows cols b (posOf b tid) with _ | tf
    · rw [bubbleStep_none rows cols b kept tid htf] at hx
      rcases ih b kept x hx with h | h
      · exact Or.inl h
      · exact Or.inr (List.mem_cons_of_mem _ h)
    · rw [bubbleStep_some rows cols b kept tid tf htf] at hx
      rcases ih _ _ x hx with h | h
      · rcases List.mem_append.mp h with h | h
        · exact Or.inl h
        · exact Or.inr (by rw [List.mem_singleton.mp h]; exact List.mem_cons_self _ _)
      · exact Or.inr (List.mem_cons_of_mem _ h)

/-- C1 counterexample: the 3x1 cascade run over `bCas` keeps both tiles after
the first pass, and on the second pass the tile with identity 2 is removed
from the working set although its position (row 1) is not at the top edge —
its directly-above tile is hidden, and the code deletes such positions
instead of retrying them on a later pass. -/
theorem cascade_skip_retry_counterexample :
    bCasPass.2 = [1, 2] ∧
    posOf bCasPass.1 2 = 1 ∧
    detectEdge 3 1 .up 1 = false ∧
    ((bCasPass.1.get? 0).map GameTile.isHidden) = some true ∧
    (bubblePass 3 1 bCasPass.1 bCasPass.2).2 = [] := by
  exact ⟨by decide, by decide, by decide, by decide, by decide⟩

/-- C1 (amended): a working-set tile is retried (stays in the working set)
exactly when the tile directly above its current position exists and is
visible — in which case it swaps down and the position moves up one row; it
is removed from the working set both at the top edge and when the
directly-above tile is hidden (there is no skip-and-retry case: the code
deletes the position whenever `#tryGetFallingTile` yields nothing). -/
theorem cascade_removal_conditions (rows cols : Nat) (b : Board) (tid : Nat)
    (rest : List Nat) (hnr : tid ∉ rest) :
    tid ∈ (bubblePass rows cols b (tid :: rest)).2 ↔
      detectEdge rows cols .up (posOf b tid) = false ∧
      ∃ t, b.get? (posOf b tid - cols) = some t ∧ t.isHidden = false := by
  rw [bubblePass_eq, List.foldl_cons]
  rcases htf : tryGetFallingTile rows cols b (posOf b tid) with _ | tf
  · rw [bubbleStep_none rows cols b [] tid htf]
    constructor
    · intro hmem
      rcases bubbleFold_kept_from rows cols rest b [] tid hmem with h | h
      · cases h
      · exact absurd h hnr
    · rintro ⟨hedge, t, hget, hvis⟩
      exfalso
      rcases tryGetFallingTile_none_elim rows cols b (posOf b tid) htf with
        h | h | ⟨u, hu, huhid⟩
      · rw [hedge] at h
        cases h
      · rw [hget] at h
        cases h
      · rw [hget] at hu
        injection hu with hu
        rw [hu, huhid] at hvis
        cases hvis
    
  · rw [bubbleStep_some rows cols b [] tid tf htf]
    rcases tryGetFallingTile_some_elim rows cols b (posOf b tid) tf htf with
      ⟨hedge, hget, hvis⟩
    constructor
    · intro _
      exact ⟨hedge, tf, hget, hvis⟩
    · intro _
      exact bubbleFold_kept_mono rows cols rest _ _ tid
        (List.mem_append_right _ (List.mem_singleton.mpr rfl))

theorem cascade_removal_conditions_witness :
    1 ∈ (bubblePass 3 1 bCas [1, 2]).2 ∧
    2 ∉ (bubblePass 3 1 bCasPass.1 [2]).2 := by
  constructor
  · exact (cascade_removal_conditions 3 1 bCas 1 [2] (by decide)).mpr
      ⟨by decide, ⟨0, 1, false⟩, by decide, rfl⟩
  · intro hmem
    rcases (cascade_removal_conditions 3 1 bCasPass.1 2 [] (by decide)).mp hmem
      with ⟨hedge, t, hget, hvis⟩
    have h0 : bCasPass.1.get? (posOf bCasPass.1 2 - 1) = some ⟨1, 2, true⟩ := by
      decide
    rw [h0] at hget
    injection hget with hget
    rw [← hget] at hvis
    cases hvis

theorem find?_eq_get?_findIdx (p : GameTile → Bool) :
    ∀ l : List GameTile, l.find? p = l.get? (l.findIdx p) := by
  intro l
  induction l with
  | nil => rfl
  | cons a l ih =>
    rw [List.find?_cons, List.findIdx_cons]
    cases hp : p a
    · simpa using ih
    · simp

theorem typeOfId_eq_posOf (b : Board) (tid : Nat) :
    typeOfId b tid = ((b.get? (posOf b tid)).map GameTile.type).getD 0 := by
  unfold typeOfId posOf
  rw [find?_eq_get?_findIdx]

theorem typeOfId_swapAt (b : Board) (i j : Nat) (hInj : IdsInjective b)
    (tid : Nat) : typeOfId (swapAt b i j) tid = typeOfId b tid := by
  by_cases h : HasId b tid
  · rcases posOf_get? b tid h with ⟨t, ht, htid⟩
    have h' : HasId (swapAt b i j) tid := (hasId_swapAt b i j tid).mpr h
    rcases posOf_get? (swapAt b i j) tid h' with ⟨u, hu, huid⟩
    have humem : u ∈ b :=
      (mem_swapAt b i j u).mp (List.mem_iff_get?.mpr ⟨_, hu⟩)
    rcases List.mem_iff_get?.mp humem with ⟨k, hk⟩
    have hposk : posOf b tid = k := posOf_eq b tid k u hInj hk huid
    rw [hposk, hk] at ht
    injection ht with ht
    rw [typeOfId_eq_posOf, typeOfId_eq_posOf, hu, hposk, hk, ht]
  · have h' : ¬ HasId (swapAt b i j) tid :=
      fun hc => h ((hasId_swapAt b i j tid).mp hc)
    have e1 : (swapAt b i j).find? (fun t => t.id == tid) = none :=
      List.find?_eq_none.mpr
        (fun x hx hbeq => h' ⟨x, hx, by simpa using hbeq⟩)
    have e2 : b.find? (fun t => t.id == tid) = none :=
      List.find?_eq_none.mpr
        (fun x hx hbeq => h ⟨x, hx, by simpa using hbeq⟩)
    unfold typeOfId
    rw [e1, e2]

theorem idsInjective_swapTiles (b : Board) (t1 t2 : Nat)
    (hInj : IdsInjective b) : IdsInjective (swapTiles b t1 t2) :=
  idsInjective_swapAt b _ _ hInj

theorem typeOfId_swapTiles (b : Board) (t1 t2 : Nat) (hInj : IdsInjective b)
    (tid : Nat) : typeOfId (swapTiles b t1 t2) tid = typeOfId b tid :=
  typeOfId_swapAt b _ _ hInj tid

theorem idsInjective_hideIds (b : Board) (ids : List Nat)
    (hInj : IdsInjective b) : IdsInjective (hideIds b ids) := by
  intro k l tk tl hk hl hid
  unfold hideIds at hk hl
  rw [List.get?_map] at hk hl
  rcases hbk : b.get? k with _ | x
  · rw [hbk] at hk
    cases hk
  rcases hbl : b.get? l with _ | y
  · rw [hbl] at hl
    cases hl
  rw [hbk] at hk
  rw [hbl] at hl
  injection hk with hk
  injection hl with hl
  apply hInj k l x y hbk hbl
  have hxid : tk.id = x.id := by
    rw [← hk]
    show (if x.id ∈ ids then setHidden x else x).id = x.id
    split_ifs <;> rfl
  have hyid : tl.id = y.id := by
    rw [← hl]
    show (if y.id ∈ ids then setHidden y else y).id = y.id
    split_ifs <;> rfl
  rw [← hxid, ← hyid]
  exact hid

theorem find?_hide_aux (ids : List Nat) (tid : Nat) :
    ∀ l : List GameTile,
      ((l.map (fun t => if t.id ∈ ids then setHidden t else t)).find?
          (fun t => t.id == tid)).map GameTile.type =
      (l.find? (fun t => t.id == tid)).map GameTile.type := by
  intro l
  induction l with
  | nil => rfl
  | cons a l ih =>
    rw [List.map_cons, List.find?_cons, List.find?_cons]
    have hid : ((if a.id ∈ ids then setHidden a else a).id == tid) =
        (a.id == tid) := by
      split_ifs <;> rfl
    have hty : (if a.id ∈ ids then setHidden a else a).type = a.type := by
      split_ifs <;> rfl
    rw [hid]
    cases hp : (a.id == tid)
    · simpa using ih
    · simp [hty]

theorem typeOfId_hideIds (b : Board) (ids : List Nat) (tid : Nat) :
    typeOfId (hideIds b ids) tid = typeOfId b tid := by
  unfold typeOfId hideIds
  rw [find?_hide_aux]

theorem idsInjective_bubbleFoldAux (rows cols : Nat) :
    ∀ (pending : List Nat) (b : Board) (kept : List Nat), IdsInjective b →
      IdsInjective (pending.foldl (bubbleStep rows cols) (b, kept)).1 ∧
      (∀ tid, typeOfId (pending.foldl (bubbleStep rows cols) (b, kept)).1 tid =
        typeOfId b tid) := by
  intro pending
  induction pending with
  | nil => intro b kept hInj; exact ⟨hInj, fun _ => rfl⟩
  | cons tid rest ih =>
    intro b kept hInj
    rw [List.foldl_cons]
    rcases htf : tryGetFallingTile rows cols b (posOf b tid) with _ | tf
    · rw [bubbleStep_none rows cols b kept tid htf]
      exact ih b kept hInj
    · rw [bubbleStep_some rows cols b kept tid tf htf]
      have hInj1 := idsInjective_swapTiles b tid tf.id hInj
      rcases ih (swapTiles b tid tf.id) (kept ++ [tid]) hInj1 with ⟨h1, h2⟩
      exact ⟨h1, fun x => (h2 x).trans (typeOfId_swapTiles b tid tf.id hInj x)⟩

theorem idsInjective_bubbleLoopAux (rows cols : Nat) :
    ∀ fuel (b : Board) (s : List Nat), IdsInjective b →
      IdsInjective (bubbleLoop rows cols fuel b s).1 ∧
      (∀ tid, typeOfId (bubbleLoop rows cols fuel b s).1 tid =
        typeOfId b tid) := by
  intro fuel
  induction fuel with
  | zero => intro b s hInj; exact ⟨hInj, fun _ => rfl⟩
  | succ m ih =>
    intro b s hInj
    by_cases hs : s.isEmpty
    · have hs' : s = [] := by
        rcases s with _ | ⟨a, t⟩
        · rfl
        · cases hs
      subst hs'
      exact ⟨hInj, fun _ => rfl⟩
    · unfold bubbleLoop
      rw [if_neg hs, bubblePass_eq]
      rcases idsInjective_bubbleFoldAux rows cols s b [] hInj with ⟨h1, h2⟩
      rcases ih _ _ h1 with ⟨h3, h4⟩
      exact ⟨h3, fun x => (h4 x).trans (h2 x)⟩

theorem idsInjective_bubbleMatch (rows cols : Nat) (b : Board)
    (ids : List Nat) (hInj : IdsInjective b) :
    IdsInjective (bubbleMatchToTopEdge rows cols b ids) ∧
    (∀ tid, typeOfId (bubbleMatchToTopEdge rows cols b ids) tid =
      typeOfId b tid) :=
  idsInjective_bubbleLoopAux rows cols (rows * ids.length) b ids hInj

theorem manage_cases (cols : Nat) (s : GameState) (c : Nat) :
    manageAndValidateSelection cols s c = (resetUserSelection s, none) ∨
    manageAndValidateSelection cols s c =
      (resetUserSelectionWithNewPicked s c, none) ∨
    (∃ pk dir, s.picked = some pk ∧ s.target = none ∧
      typeOfId s.board pk ≠ typeOfId s.board c ∧
      manageAndValidateSelection cols s c =
        ({ s with target := some c }, some dir)) ∨
    (s.picked = none ∧
      manageAndValidateSelection cols s c =
        ({ s with picked := some c }, none)) := by
  unfold manageAndValidateSelection
  by_cases h1 : s.picked = some c
  · rw [if_pos h1]
    exact Or.inl rfl
  · rw [if_neg h1]
    by_cases h2 : s.picked.map (typeOfId s.board) = some (typeOfId s.board c)
    · rw [if_pos h2]
      exact Or.inr (Or.inl rfl)
    · rw [if_neg h2]
      rcases hpk : s.picked with _ | pk
      · exact Or.inr (Or.inr (Or.inr ⟨rfl, rfl⟩))
      · rcases htg : s.target with _ | tg
        · rcases hside : isSecondTileOnSide cols s.board pk c with _ | dir
          · refine Or.inr (Or.inl ?_)
            simp only [hside]
          · refine Or.inr (Or.inr (Or.inl ⟨pk, dir, rfl, rfl, ?_, ?_⟩))
            · intro heq
              apply h2
              rw [hpk]
              exact congrArg some heq
            · simp only [hside]
        · exact Or.inr (Or.inl rfl)

theorem selInv_click (rows cols : Nat) (s : GameState) (c : Nat)
    (hInv : SelInv s) : SelInv (tileClickHandler rows cols s c) := by
  obtain ⟨hInj, hpt, hdiff⟩ := hInv
  rcases manage_cases cols s c with hm | hm | ⟨pk, dir, hpk, htg, hty, hm⟩ |
    ⟨hpk, hm⟩
  · simp only [tileClickHandler, hm]
    refine ⟨hInj, fun _ => rfl, ?_⟩
    intro p t hp ht
    exact Option.noConfusion hp
  · simp only [tileClickHandler, hm]
    refine ⟨hInj, fun h => Option.noConfusion h, ?_⟩
    intro p t hp ht
    exact Option.noConfusion ht
  · simp only [tileClickHandler, hm, hpk]
    rcases hcalc : calculateMatchByUserSelection rows cols
        (swapTiles s.board pk c) (posOf (swapTiles s.board pk c) pk)
        (posOf (swapTiles s.board pk c) c) with _ | combo
    · simp only [hcalc]
      refine ⟨idsInjective_swapTiles s.board pk c hInj,
        fun h => Option.noConfusion h, ?_⟩
      intro p t hp ht
      injection hp with hp
      injection ht with ht
      rw [typeOfId_swapTiles s.board pk c hInj,
        typeOfId_swapTiles s.board pk c hInj, ← hp, ← ht]
      exact hty
    · simp only [hcalc, handleUserSuccessSelection]
      refine ⟨?_, fun _ => rfl, fun p t hp ht => Option.noConfusion hp⟩
      exact (idsInjective_bubbleMatch rows cols _ _
        (idsInjective_hideIds _ _ (idsInjective_swapTiles s.board pk c hInj))).1
  · simp only [tileClickHandler, hm]
    refine ⟨hInj, fun h => Option.noConfusion h, ?_⟩
    intro p t hp ht
    have : s.target = none := hpt hpk
    rw [this] at ht
    exact Option.noConfusion ht

theorem selInv_timer (rows cols : Nat) (s : GameState) (hInv : SelInv s) :
    SelInv (stepEvent rows cols s .revertTimer) := by
  obtain ⟨hInj, hpt, hdiff⟩ := hInv
  unfold stepEvent fireRevert
  rcases hpk : s.picked with _ | pk <;> rcases htg : s.target with _ | tg
  · exact ⟨hInj, hpt, hdiff⟩
  · exact ⟨hInj, hpt, hdiff⟩
  · exact ⟨hInj, hpt, hdiff⟩
  · refine ⟨idsInjective_swapTiles s.board pk tg hInj, fun _ => rfl, ?_⟩
    intro p t hp ht
    exact Option.noConfusion hp

theorem selInv_step (rows cols : Nat) (s : GameState) (e : GameEvent)
    (hInv : SelInv s) : SelInv (stepEvent rows cols s e) := by
  cases e with
  | click tid => exact selInv_click rows cols s tid hInv
  | revertTimer => exact selInv_timer rows cols s hInv

theorem selInv_run (rows cols : Nat) :
    ∀ (evs : List GameEvent) (s : GameState), SelInv s →
      SelInv (runEvents rows cols s evs) := by
  intro evs
  induction evs with
  | nil => intro s hInv; exact hInv
  | cons e rest ih =>
    intro s hInv
    exact ih _ (selInv_step rows cols s e hInv)

theorem click_same_type_new_picked (rows cols : Nat) (s : GameState)
    (c p : Nat) (hp : s.picked = some p) (hne : c ≠ p)
    (hty : typeOfId s.board c = typeOfId s.board p) :
    (tileClickHandler rows cols s c).picked = some c ∧
    (tileClickHandler rows cols s c).target = none := by
  unfold tileClickHandler manageAndValidateSelection
  have h1 : ¬ s.picked = some c := by
    rw [hp]
    intro hc
    injection hc with hc
    exact hne hc.symm
  rw [if_neg h1]
  have h2 : s.picked.map (typeOfId s.board) = some (typeOfId s.board c) := by
    rw [hp]
    exact congrArg some hty.symm
  rw [if_pos h2]
  exact ⟨rfl, rfl⟩

theorem click_picked_resets (rows cols : Nat) (s : GameState) (p : Nat)
    (hp : s.picked = some p) :
    (tileClickHandler rows cols s p).picked = none ∧
    (tileClickHandler rows cols s p).target = none := by
  unfold tileClickHandler manageAndValidateSelection
  rw [if_pos hp]
  exact ⟨rfl, rfl⟩

/-- C10 (amended): for every event sequence from a board with distinct tile
identities, whenever both picked and target are set their tile types differ
(so a swap between two same-type tiles is never attempted); clicking a
different tile whose type equals the picked tile's type never selects it as
the target but makes it the new picked tile with the target cleared; clicking
the picked tile itself (type trivially equal) clears the selection entirely
rather than making it the new picked tile. -/
theorem same_type_never_target (rows cols : Nat) (b0 : Board)
    (evs : List GameEvent) (h0 : NodupIds b0) :
    (∀ p t, (runEvents rows cols ⟨b0, none, none⟩ evs).picked = some p →
      (runEvents rows cols ⟨b0, none, none⟩ evs).target = some t →
      typeOfId (runEvents rows cols ⟨b0, none, none⟩ evs).board p ≠
        typeOfId (runEvents rows cols ⟨b0, none, none⟩ evs).board t) ∧
    (∀ c p, (runEvents rows cols ⟨b0, none, none⟩ evs).picked = some p →
      c ≠ p →
      typeOfId (runEvents rows cols ⟨b0, none, none⟩ evs).board c =
        typeOfId (runEvents rows cols ⟨b0, none, none⟩ evs).board p →
      (tileClickHandler rows cols (runEvents rows cols ⟨b0, none, none⟩ evs)
          c).picked = some c ∧
      (tileClickHandler rows cols (runEvents rows cols ⟨b0, none, none⟩ evs)
          c).target = none) ∧
    (∀ p, (runEvents rows cols ⟨b0, none, none⟩ evs).picked = some p →
      (tileClickHandler rows cols (runEvents rows cols ⟨b0, none, none⟩ evs)
          p).picked = none ∧
      (tileClickHandler rows cols (runEvents rows cols ⟨b0, none, none⟩ evs)
          p).target = none) := by
  have hInv0 : SelInv ⟨b0, none, none⟩ :=
    ⟨(nodupIds_iff_idsInjective b0).mp h0, fun _ => rfl,
      fun p t hp ht => Option.noConfusion hp⟩
  have hInv := selInv_run rows cols evs ⟨b0, none, none⟩ hInv0
  refine ⟨hInv.2.2, ?_, ?_⟩
  · intro c p hp hne hty
    exact click_same_type_new_picked rows cols _ c p hp hne hty
  · intro p hp
    exact click_picked_resets rows cols _ p hp

theorem same_type_never_target_witness :
    NodupIds b12same ∧
    (runEvents 1 2 ⟨b12same, none, none⟩ [.click 0]).picked = some 0 ∧
    (tileClickHandler 1 2 (runEvents 1 2 ⟨b12same, none, none⟩ [.click 0])
      1).picked = some 1 ∧
    (tileClickHandler 1 2 (runEvents 1 2 ⟨b12same, none, none⟩ [.click 0])
      1).target = none := by
  refine ⟨by decide, by decide, ?_, ?_⟩
  · exact ((same_type_never_target 1 2 b12same [.click 0] (by decide)).2.1
      1 0 (by decide) (by decide) (by decide)).1
  · exact ((same_type_never_target 1 2 b12same [.click 0] (by decide)).2.1
      1 0 (by decide) (by decide) (by decide)).2
